import Mathlib

/-!
Verification of the import-graph construction engine of `script.py`.

The source program analyzes a directory of Python files and builds a
`networkx.DiGraph` whose nodes are files, declarations (functions and
classes) and imported modules, together with a snippet map used by an
interactive preview pane.  This file is a shallow embedding of that
program: Python AST statements become the inductive type `Stmt`,
`ast.walk` becomes `walk` (breadth-first traversal), the networkx graph
becomes the `Graph` structure with faithful `add_node` / `add_edge`
semantics (attribute update on re-insertion, edge dedup), and each
function of the script becomes a Lean definition of the same name.
-/

/-- A Python AST statement, restricted to the constructors the script
inspects.  `importS names` models `ast.Import` (one alias name per entry,
`import a.b` gives the dotted name `"a.b"`); `importFrom module names`
models `ast.ImportFrom` (`module` is `None` for `from . import x`);
`functionDef` / `classDef` carry their body; `other` stands for any other
compound statement (e.g. `if`, `try`) whose children `ast.walk` still
visits. -/
inductive Stmt where
  | importS (names : List String)
  | importFrom (module : Option String) (names : List String)
  | functionDef (name : String) (body : List Stmt)
  | classDef (name : String) (body : List Stmt)
  | other (body : List Stmt)

/-- The child AST nodes that `ast.iter_child_nodes` yields and that can
contain further statements: the body of a compound statement. -/
def Stmt.children : Stmt → List Stmt
  | .functionDef _ b => b
  | .classDef _ b => b
  | .other b => b
  | _ => []

mutual
/-- Number of statement nodes in a statement (itself included). -/
def Stmt.size : Stmt → Nat
  | .importS _ => 1
  | .importFrom _ _ => 1
  | .functionDef _ b => 1 + sizeList b
  | .classDef _ b => 1 + sizeList b
  | .other b => 1 + sizeList b

/-- Number of statement nodes in a list of statements. -/
def sizeList : List Stmt → Nat
  | [] => 0
  | s :: rest => s.size + sizeList rest
end

/-- `ast.walk`: breadth-first traversal of all statements, with explicit
fuel (the fuel is always instantiated with an upper bound on the number
of nodes, so the `0` case is never reached from `walk`). -/
def walkFuel : Nat → List Stmt → List Stmt
  | 0, _ => []
  | _ + 1, [] => []
  | fuel + 1, s :: rest => s :: walkFuel fuel (rest ++ s.children)

/-- `ast.walk(tree)` restricted to statements: starting from the module
body, yield each statement and append its children to the queue
(breadth-first, exactly like the `collections.deque` in `ast.walk`). -/
def walk (queue : List Stmt) : List Stmt := walkFuel (sizeList queue) queue

theorem sizeList_append (a b : List Stmt) :
    sizeList (a ++ b) = sizeList a + sizeList b := by
  induction a with
  | nil => simp [sizeList]
  | cons s rest ih => simp [sizeList, ih, Nat.add_assoc]

theorem Stmt.size_pos (s : Stmt) : 0 < s.size := by
  cases s <;> simp [Stmt.size]

theorem Stmt.size_children (s : Stmt) : sizeList s.children + 1 = s.size := by
  cases s <;> simp [Stmt.size, Stmt.children, sizeList] <;> omega

theorem walkFuel_congr :
    ∀ (f g : Nat) (q : List Stmt), sizeList q ≤ f → sizeList q ≤ g →
      walkFuel f q = walkFuel g q := by
  intro f
  induction f with
  | zero =>
    intro g q hf _
    cases q with
    | nil => cases g <;> rfl
    | cons s rest =>
      exfalso
      have := Stmt.size_pos s
      simp [sizeList] at hf
      omega
  | succ f ih =>
    intro g q hf hg
    cases q with
    | nil => cases g <;> rfl
    | cons s rest =>
      cases g with
      | zero =>
        exfalso
        have := Stmt.size_pos s
        simp [sizeList] at hg
        omega
      | succ g =>
        simp only [walkFuel]
        congr 1
        apply ih
        · have h1 := sizeList_append rest s.children
          have h2 := Stmt.size_children s
          simp [sizeList] at hf
          omega
        · have h1 := sizeList_append rest s.children
          have h2 := Stmt.size_children s
          simp [sizeList] at hg
          omega

theorem walk_nil : walk [] = [] := rfl

theorem walk_cons (s : Stmt) (rest : List Stmt) :
    walk (s :: rest) = s :: walk (rest ++ s.children) := by
  have h1 : sizeList (rest ++ s.children) = sizeList rest + sizeList s.children :=
    sizeList_append rest s.children
  have h2 := Stmt.size_children s
  show walkFuel (sizeList (s :: rest)) (s :: rest) = _
  have h3 : sizeList (s :: rest) = sizeList (rest ++ s.children) + 1 := by
    simp [sizeList]; omega
  rw [h3]
  show s :: walkFuel (sizeList (rest ++ s.children)) (rest ++ s.children) = _
  rfl

mutual
/-- All statements reachable from a statement (itself included),
depth-first; used only as a structurally-recursive description of the
node set that `walk` visits. -/
def stmtAll : Stmt → List Stmt
  | .importS ns => [.importS ns]
  | .importFrom m ns => [.importFrom m ns]
  | .functionDef n b => .functionDef n b :: stmtsAll b
  | .classDef n b => .classDef n b :: stmtsAll b
  | .other b => .other b :: stmtsAll b

/-- All statements reachable from a list of statements. -/
def stmtsAll : List Stmt → List Stmt
  | [] => []
  | s :: rest => stmtAll s ++ stmtsAll rest
end

theorem stmtAll_eq (s : Stmt) : stmtAll s = s :: stmtsAll s.children := by
  cases s <;> simp [stmtAll, Stmt.children, stmtsAll]

theorem stmtsAll_append (a b : List Stmt) :
    stmtsAll (a ++ b) = stmtsAll a ++ stmtsAll b := by
  induction a with
  | nil => simp [stmtsAll]
  | cons s rest ih => simp [stmtsAll, ih]

/-- `walk` visits exactly the statements of the tree: it is a permutation
of the depth-first enumeration `stmtsAll`. -/
theorem walk_perm_stmtsAll (q : List Stmt) : List.Perm (walk q) (stmtsAll q) := by
  generalize hn : sizeList q = n
  induction n using Nat.strong_induction_on generalizing q with
  | _ n ih =>
    cases q with
    | nil => simp [walk_nil, stmtsAll]
    | cons s rest =>
      rw [walk_cons, stmtsAll]
      have hsz : sizeList (rest ++ s.children) < n := by
        have h1 := sizeList_append rest s.children
        have h2 := Stmt.size_children s
        subst hn
        simp [sizeList]
        omega
      have hperm := ih _ hsz (rest ++ s.children) rfl
      rw [stmtsAll_append] at hperm
      have h1 : List.Perm (s :: walk (rest ++ s.children))
          (s :: (stmtsAll rest ++ stmtsAll s.children)) := hperm.cons s
      have h2 : List.Perm (s :: (stmtsAll rest ++ stmtsAll s.children))
          (s :: (stmtsAll s.children ++ stmtsAll rest)) :=
        List.perm_append_comm.cons s
      have h3 : stmtAll s ++ stmtsAll rest = s :: (stmtsAll s.children ++ stmtsAll rest) := by
        rw [stmtAll_eq]; rfl
      rw [h3]
      exact h1.trans h2

theorem mem_walk_iff (q : List Stmt) (s : Stmt) :
    s ∈ walk q ↔ s ∈ stmtsAll q := (walk_perm_stmtsAll q).mem_iff

theorem mem_stmtsAll_of_mem (q : List Stmt) (s : Stmt) (hs : s ∈ q) :
    s ∈ stmtsAll q := by
  induction q with
  | nil => cases hs
  | cons t rest ih =>
    rw [stmtsAll]
    rcases List.mem_cons.mp hs with rfl | hs
    · apply List.mem_append_left
      rw [stmtAll_eq]
      exact List.mem_cons_self _ _
    · exact List.mem_append_right _ (ih hs)

/-- A statement stays in the reachable set when passing through a member:
if `s` is reachable from `q` then everything in `s.children` is too. -/
theorem mem_stmtsAll_trans (q : List Stmt) (s t : Stmt)
    (ht : t ∈ s.children) : s ∈ stmtsAll q → t ∈ stmtsAll q := by
  generalize hn : sizeList q = n
  induction n using Nat.strong_induction_on generalizing q with
  | _ n ih =>
  intro hs
  cases q with
  | nil => cases hs
  | cons u rest =>
    rw [stmtsAll] at hs ⊢
    rcases List.mem_append.mp hs with hs | hs
    · rw [stmtAll_eq] at hs
      apply List.mem_append_left
      rw [stmtAll_eq]
      rcases List.mem_cons.mp hs with rfl | hs
      · exact List.mem_cons_of_mem _ (mem_stmtsAll_of_mem _ _ ht)
      · refine List.mem_cons_of_mem _ ?_
        refine ih (sizeList u.children) ?_ u.children rfl hs
        subst hn
        have h1 := Stmt.size_children u
        simp [sizeList]
        omega
    · refine List.mem_append_right _ ?_
      refine ih (sizeList rest) ?_ rest rfl hs
      subst hn
      have h1 := Stmt.size_pos u
      simp [sizeList]
      omega

/-- A method of a class reachable in the tree is itself reachable. -/
theorem mem_walk_of_child (m : List Stmt) (s t : Stmt)
    (hs : s ∈ walk m) (ht : t ∈ s.children) : t ∈ walk m := by
  rw [mem_walk_iff] at hs ⊢
  exact mem_stmtsAll_trans m s t ht hs

/-! ### Python dictionaries

An insertion-ordered association list with the update behaviour of a
Python `dict`: assigning to an existing key replaces its value in place,
assigning to a fresh key appends. -/

/-- `d[k] = v` on a Python dict. -/
def dictInsert (d : List (String × String)) (k v : String) : List (String × String) :=
  if (d.find? (fun kv => kv.1 = k)).isSome then
    d.map (fun kv => if kv.1 = k then (k, v) else kv)
  else
    d ++ [(k, v)]

/-- `d.get(k)` on a Python dict. -/
def dictLookup (d : List (String × String)) (k : String) : Option String :=
  (d.find? (fun kv => kv.1 = k)).map (fun kv => kv.2)

/-- Build a dict from a list of key/value assignments performed in order. -/
def dictOfWrites (ws : List (String × String)) : List (String × String) :=
  ws.foldl (fun d kv => dictInsert d kv.1 kv.2) []

/-- Python `{**a, **b}`: start from `a` and assign every entry of `b`. -/
def dictMerge (a b : List (String × String)) : List (String × String) :=
  b.foldl (fun d kv => dictInsert d kv.1 kv.2) a

/-! ### The Source Analyzer: `parse_imports` (script.py lines 8-23) -/

/-- The flat identifier of one `from MODULE import NAME` alias:
`module = node.module or ''`, then `f"{module}.{alias.name}" if module
else alias.name` (script.py lines 18-20).  A bare `import NAME` uses the
dotted alias name itself. -/
def flatName (module : Option String) (name : String) : String :=
  let m := module.getD ""
  if m = "" then name else m ++ "." ++ name

/-- The dict-key assignments a single walked statement performs inside
`parse_imports`; each value is the bare alias name (the singleton set
`{alias.name}` in the source, which nothing ever reads). -/
def stmtImportWrites : Stmt → List (String × String)
  | .importS names => names.map (fun n => (n, n))
  | .importFrom module names => names.map (fun n => (flatName module n, n))
  | _ => []

/-- `parse_imports` (script.py lines 8-23): walk the whole tree and
record every `ast.Import` / `ast.ImportFrom` alias under its flat
identifier.  The file has already been parsed; the argument is the
module body. -/
def parse_imports (m : List Stmt) : List (String × String) :=
  (walk m).foldl (fun imports node => (stmtImportWrites node).foldl
    (fun d kv => dictInsert d kv.1 kv.2) imports) []

/-- The flat identifiers `parse_imports` reports for a file. -/
def importKeys (m : List Stmt) : List String := (parse_imports m).map Prod.fst

/-! ### Snippet reconstruction

`get_function_code` / `get_class_code` (script.py lines 44-48) call
`ast.unparse`, an external library routine that re-serializes an AST
node.  `unparse` abstracts it as a total structural serializer; the
program only ever propagates these strings verbatim, so no claim depends
on the exact text beyond it being a nonempty rendering of the
declaration. -/

/-- Abstracts `ast.unparse` on one statement: a total serializer whose
exact text the program never inspects (snippets are only stored and
returned verbatim), kept shallow — a body is summarized by its
statement count rather than serialized in full, which keeps the
function a plain structural map while still rendering declarations
with visibly different bodies as different text, the way
`ast.unparse` does (so dict overwrites between same-named
declarations stay observable). -/
def unparse : Stmt → String
  | .importS ns => "import " ++ String.intercalate ", " ns
  | .importFrom mo ns => "from " ++ mo.getD "" ++ " import " ++ String.intercalate ", " ns
  | .functionDef n b => "def " ++ n ++ "(): <" ++ Nat.repr (sizeList b) ++ " stmts>"
  | .classDef n b => "class " ++ n ++ ": <" ++ Nat.repr (sizeList b) ++ " stmts>"
  | .other _ => "..."

/-- `get_function_code` (script.py line 44-45). -/
def get_function_code (node : Stmt) : String := unparse node

/-- `get_class_code` (script.py line 47-48). -/
def get_class_code (node : Stmt) : String := unparse node

/-! ### The graph (networkx.DiGraph)

Nodes are an insertion-ordered association list from identity to the two
attributes the script uses (`color` and `type`); edges are an
insertion-ordered list of pairs.  `add_node` on an existing node updates
its attributes; `add_edge` silently creates missing endpoints (with no
attributes) and ignores duplicate edges — exactly networkx semantics. -/

/-- The node attributes used by the script: `color` and `type`.  Both are
`Option` because `networkx.add_edge` can create a node with no
attributes at all. -/
structure NodeAttr where
  color : Option String
  type : Option String
deriving DecidableEq, Repr

/-- A node freshly created by `add_edge`: no attributes. -/
def emptyAttr : NodeAttr := ⟨none, none⟩

/-- A directed graph with attributed nodes, as the script uses it. -/
structure Graph where
  nodes : List (String × NodeAttr)
  edges : List (String × String)
deriving DecidableEq, Repr

def Graph.empty : Graph := ⟨[], []⟩

/-- `G.nodes[x]`, as an `Option`. -/
def lookupNode (G : Graph) (x : String) : Option NodeAttr :=
  (G.nodes.find? (fun kv => kv.1 = x)).map (fun kv => kv.2)

def containsNode (G : Graph) (x : String) : Bool :=
  (G.nodes.find? (fun kv => kv.1 = x)).isSome

/-- `G.add_node(n, color=…, type=…)`: update the attributes if the node
exists, append it otherwise. -/
def add_node (G : Graph) (n : String) (a : NodeAttr) : Graph :=
  if containsNode G n then
    { G with nodes := G.nodes.map (fun kv => if kv.1 = n then (n, a) else kv) }
  else
    { G with nodes := G.nodes ++ [(n, a)] }

/-- Create a node with no attributes if absent (the implicit node
creation performed by `networkx.add_edge`). -/
def ensureNode (G : Graph) (n : String) : Graph :=
  if containsNode G n then G else { G with nodes := G.nodes ++ [(n, emptyAttr)] }

/-- `G.add_edge(u, v)`: create missing endpoints, then add the edge if it
is not already present. -/
def add_edge (G : Graph) (u v : String) : Graph :=
  if (u, v) ∈ (ensureNode (ensureNode G u) v).edges then
    ensureNode (ensureNode G u) v
  else
    { ensureNode (ensureNode G u) v with
      edges := (ensureNode (ensureNode G u) v).edges ++ [(u, v)] }

/-- Outgoing-edge count of a node (`G.out_degree`). -/
def out_degree (G : Graph) (x : String) : Nat :=
  (G.edges.filter (fun e => e.1 = x)).length

/-- `G.nodes[n]['color'] = c`, leaving `type` untouched. -/
def setColor (G : Graph) (n : String) (c : String) : Graph :=
  { G with nodes := G.nodes.map (fun kv =>
      if kv.1 = n then (kv.1, NodeAttr.mk (some c) kv.2.type) else kv) }

/-- `mark_dead_code` (script.py lines 25-28): color every file node with
no outgoing edges red. -/
def mark_dead_code (G : Graph) (file_nodes : List (String × String)) : Graph :=
  file_nodes.foldl (fun G kv =>
    if out_degree G kv.2 = 0 then setColor G kv.2 "red" else G) G

/-! ### The Graph Builder: `build_import_graph` (script.py lines 50-90)

The loop body of `build_import_graph` performs, for each discovered
file, a fixed sequence of `add_node` / `add_edge` calls determined by
the file path and its parsed tree.  We record that sequence as an
explicit list of graph operations (`Op`) and obtain the graph by
replaying them in source order; the dictionary writes to
`function_codes` / `class_codes` are recorded the same way. -/

/-- One mutation of the networkx graph. -/
inductive Op where
  | node (id : String) (a : NodeAttr)
  | edge (u v : String)
deriving DecidableEq, Repr

def applyOp (G : Graph) : Op → Graph
  | .node n a => add_node G n a
  | .edge u v => add_edge G u v

def applyOps (G : Graph) (ops : List Op) : Graph := ops.foldl applyOp G

/-- Node colors/types (script.py lines 61, 70, 75, 81, 87). -/
def attrFile : NodeAttr := ⟨some "blue", some "file"⟩
def attrFunction : NodeAttr := ⟨some "green", some "function"⟩
def attrClass : NodeAttr := ⟨some "red", some "class"⟩
def attrModule : NodeAttr := ⟨some "yellow", some "module"⟩

/-- The graph operations one walked statement triggers (script.py lines
67-83): a `FunctionDef` anywhere yields a green function node
`file::name` with an edge from the file node; a `ClassDef` yields a red
class node `file::name` with an edge from the file node, plus, for each
`FunctionDef` directly in its body, a green method node
`file::class::method` with an edge from the class node. -/
def stmtOps (p : String) : Stmt → List Op
  | .functionDef name _ =>
      [.node (p ++ "::" ++ name) attrFunction, .edge p (p ++ "::" ++ name)]
  | .classDef name body =>
      [.node (p ++ "::" ++ name) attrClass, .edge p (p ++ "::" ++ name)] ++
      body.flatMap (fun item => match item with
        | .functionDef mname _ =>
            [.node (p ++ "::" ++ name ++ "::" ++ mname) attrFunction,
             .edge (p ++ "::" ++ name) (p ++ "::" ++ name ++ "::" ++ mname)]
        | _ => [])
  | _ => []

/-- The graph operations of the import loop (script.py lines 85-88): one
yellow module node per flat identifier, and a reference edge from the
file node to it. -/
def importOps (p : String) (m : List Stmt) : List Op :=
  (parse_imports m).flatMap (fun kv => [.node kv.1 attrModule, .edge p kv.1])

/-- All graph operations of one file's loop iteration (script.py lines
59-88): the blue file node, then the declaration walk, then the import
references. -/
def fileOps (f : String × List Stmt) : List Op :=
  .node f.1 attrFile :: ((walk f.2).flatMap (stmtOps f.1) ++ importOps f.1 f.2)

/-- All graph operations of a run over the discovered file list. -/
def buildOps (files : List (String × List Stmt)) : List Op :=
  files.flatMap fileOps

/-- The `function_codes` dict writes one walked statement performs
(script.py lines 72 and 78-83). -/
def stmtFunWrites (p : String) : Stmt → List (String × String)
  | .functionDef name body =>
      [(p ++ "::" ++ name, get_function_code (.functionDef name body))]
  | .classDef name body =>
      body.filterMap (fun item => match item with
        | .functionDef mname mbody =>
            some (p ++ "::" ++ name ++ "::" ++ mname,
                  get_function_code (.functionDef mname mbody))
        | _ => none)
  | _ => []

/-- The `class_codes` dict writes one walked statement performs
(script.py line 77). -/
def stmtClassWrites (p : String) : Stmt → List (String × String)
  | .classDef name body => [(p ++ "::" ++ name, get_class_code (.classDef name body))]
  | _ => []

/-- The `function_codes` dict after the run. -/
def function_codesOf (files : List (String × List Stmt)) : List (String × String) :=
  dictOfWrites (files.flatMap (fun f => (walk f.2).flatMap (stmtFunWrites f.1)))

/-- The `class_codes` dict after the run. -/
def class_codesOf (files : List (String × List Stmt)) : List (String × String) :=
  dictOfWrites (files.flatMap (fun f => (walk f.2).flatMap (stmtClassWrites f.1)))

/-- The triple `build_import_graph` returns (script.py line 90). -/
structure BuildResult where
  G : Graph
  file_nodes : List (String × String)
  codes : List (String × String)

/-- `build_import_graph` (script.py lines 50-90) on the list of `.py`
files discovered by `os.walk`, every one of which parsed successfully:
the graph from replaying all operations in source order, the
`file_nodes` dict (`file_nodes[file_path] = file_node`, line 62), and
the merged snippet dict `{**function_codes, **class_codes}` (line 90).
Directory traversal itself is external (spec §1); the argument is the
discovered `(path, parsed tree)` list in traversal order. -/
def build_import_graph (files : List (String × List Stmt)) : BuildResult :=
  { G := applyOps Graph.empty (buildOps files)
    file_nodes := dictOfWrites (files.map (fun f => (f.1, f.1)))
    codes := dictMerge (function_codesOf files) (class_codesOf files) }

/-- `build_import_graph` over raw sources: each discovered file carries
the outcome of `ast.parse` on its text (`.error` for malformed source).
Line 65 calls `ast.parse` with no handler, so the first failure raises
out of `build_import_graph` and `main` (lines 271-274) lets it abort the
whole run; nothing is returned. -/
def build_import_graph_exc (files : List (String × Except Unit (List Stmt))) :
    Except Unit BuildResult := do
  let parsed ← files.mapM (fun f => do pure (f.1, (← f.2)))
  pure (build_import_graph parsed)

/-- The Preview Resolver (spec §4.4): the `plotly_click` handler of
`create_interactive_graph` (script.py lines 179-207).  `function_codes`
is the merged snippet dict embedded in the page, `fetch` the external
content service used for file nodes, and `nodeName`/`nodeType` the two
fields recovered from the clicked node's hover text.  Note the handler
tests the looked-up snippet for JavaScript truthiness (`if (code)`), so
an empty-string snippet would fall to the sentinel. -/
def resolve (function_codes : List (String × String)) (fetch : String → String)
    (nodeName nodeType : String) : String :=
  if nodeType = "function" ∨ nodeType = "class" then
    match dictLookup function_codes nodeName with
    | some code => if code = "" then "Code not available" else code
    | none => "Code not available"
  else if nodeType = "file" then
    fetch nodeName
  else
    "No preview available for " ++ nodeType ++ ": " ++ nodeName

/-! ### Well-formedness of real inputs

The claims quantify over runs on actual directories.  Real inputs
satisfy structural facts that the embedding states explicitly: paths
produced by `os.path.join(root, file)` contain a `/` and (on any sane
checkout) no `:`; declaration names are Python identifiers (no `.`,
`:` or `/`); imported module paths are dotted identifier chains (no
`:` or `/`).  `noClash` additionally rules out a file using the same
name both as a function and as a class, which would make the node's
kind depend on which declaration `ast.walk` reaches last. -/

/-- A Python identifier: nonempty, no `.`/`:`/`/`. -/
def nameOK (s : String) : Bool :=
  s ≠ "" && s.data.all (fun c => c ≠ ':' && c ≠ '.' && c ≠ '/')

/-- A dotted module path as it appears in an import statement. -/
def dottedOK (s : String) : Bool := s.data.all (fun c => c ≠ ':' && c ≠ '/')

/-- A file path as produced by `os.path.join` during `os.walk`. -/
def pathOK (p : String) : Bool := p.data.any (fun c => c = '/') && p.data.all (fun c => c ≠ ':')

mutual
/-- Structural sanity of one statement (see section comment). -/
def stmtOK : Stmt → Bool
  | .importS names => names.all dottedOK
  | .importFrom module names => dottedOK (module.getD "") && names.all dottedOK
  | .functionDef n b => nameOK n && stmtsOK b
  | .classDef n b => nameOK n && stmtsOK b
  | .other b => stmtsOK b

/-- Structural sanity of a statement list. -/
def stmtsOK : List Stmt → Bool
  | [] => true
  | s :: rest => stmtOK s && stmtsOK rest
end

/-- Names of all functions the walk reaches. -/
def funcNames (m : List Stmt) : List String :=
  (walk m).filterMap (fun s => match s with | .functionDef n _ => some n | _ => none)

/-- Names of all classes the walk reaches. -/
def classNames (m : List Stmt) : List String :=
  (walk m).filterMap (fun s => match s with | .classDef n _ => some n | _ => none)

/-- No identifier is used both as a function name and as a class name
within one file. -/
def noClash (m : List Stmt) : Bool :=
  (funcNames m).all (fun n => decide (n ∉ classNames m))

/-- Well-formedness of a discovered file list: distinct paths, sane
paths, sane statements, no function/class name clash. -/
def filesWF (files : List (String × List Stmt)) : Prop :=
  (files.map Prod.fst).Nodup ∧
  ∀ f ∈ files, pathOK f.1 = true ∧ stmtsOK f.2 = true ∧ noClash f.2 = true

instance (files : List (String × List Stmt)) : Decidable (filesWF files) := by
  unfold filesWF; infer_instance

/-! ### Association-list lemmas (shared by the dicts and the graph) -/

theorem find?_key_append {α : Type} (l1 l2 : List (String × α)) (k : String) :
    (l1 ++ l2).find? (fun kv => kv.1 = k) =
      match l1.find? (fun kv => kv.1 = k) with
      | some kv => some kv
      | none => l2.find? (fun kv => kv.1 = k) := by
  induction l1 with
  | nil => simp
  | cons kv rest ih =>
    by_cases h : kv.1 = k
    · simp [List.find?_cons_of_pos, h]
    · rw [List.cons_append, List.find?_cons_of_neg _ (by simpa using h),
        List.find?_cons_of_neg _ (by simpa using h)]
      exact ih

theorem find?_key_map_update_self {α : Type} (l : List (String × α)) (n : String) (a : α) :
    (l.map (fun kv => if kv.1 = n then (n, a) else kv)).find? (fun kv => kv.1 = n) =
      (l.find? (fun kv => kv.1 = n)).map (fun _ => (n, a)) := by
  induction l with
  | nil => simp
  | cons kv rest ih =>
    by_cases h : kv.1 = n
    · simp only [List.map_cons, if_pos h]
      rw [List.find?_cons_of_pos _ (by simp), List.find?_cons_of_pos _ (by simpa using h)]
      simp
    · simp only [List.map_cons, if_neg h]
      rw [List.find?_cons_of_neg _ (by simpa using h),
        List.find?_cons_of_neg _ (by simpa using h)]
      exact ih

theorem find?_key_map_update_other {α : Type} (l : List (String × α)) (n k : String)
    (a : α) (hk : k ≠ n) :
    (l.map (fun kv => if kv.1 = n then (n, a) else kv)).find? (fun kv => kv.1 = k) =
      l.find? (fun kv => kv.1 = k) := by
  induction l with
  | nil => simp
  | cons kv rest ih =>
    by_cases h : kv.1 = n
    · simp only [List.map_cons, if_pos h]
      rw [List.find?_cons_of_neg _ (by simpa using (Ne.symm hk)),
        List.find?_cons_of_neg _ (by simp [h]; exact Ne.symm hk)]
      exact ih
    · simp only [List.map_cons, if_neg h]
      by_cases h2 : kv.1 = k
      · rw [List.find?_cons_of_pos _ (by simpa using h2),
          List.find?_cons_of_pos _ (by simpa using h2)]
      · rw [List.find?_cons_of_neg _ (by simpa using h2),
          List.find?_cons_of_neg _ (by simpa using h2)]
        exact ih

theorem keys_map_update {α : Type} (l : List (String × α)) (n : String) (a : α) :
    (l.map (fun kv => if kv.1 = n then (n, a) else kv)).map Prod.fst = l.map Prod.fst := by
  induction l with
  | nil => simp
  | cons kv rest ih =>
    by_cases h : kv.1 = n <;> simp [h, ih]

/-! ### Dict lemmas -/

theorem dictLookup_dictInsert (d : List (String × String)) (k v k2 : String) :
    dictLookup (dictInsert d k v) k2 = if k2 = k then some v else dictLookup d k2 := by
  unfold dictInsert dictLookup
  by_cases hc : (d.find? (fun kv => kv.1 = k)).isSome
  · rw [if_pos hc]
    by_cases hk : k2 = k
    · subst hk
      rw [find?_key_map_update_self]
      rcases Option.isSome_iff_exists.mp hc with ⟨kv, hkv⟩
      simp [hkv]
    · rw [find?_key_map_update_other _ _ _ _ hk, if_neg hk]
  · rw [if_neg hc]
    rw [find?_key_append]
    by_cases hk : k2 = k
    · subst hk
      rw [Option.not_isSome_iff_eq_none.mp hc]
      simp
    · rw [if_neg hk]
      cases hfind : d.find? (fun kv => kv.1 = k2) with
      | some kv => simp
      | none =>
        simp only []
        rw [List.find?_cons_of_neg _ (by simpa using (fun h => hk h.symm)), List.find?_nil]

theorem getLast?_cons_of_ne_nil {α : Type} (a : α) (l : List α) (h : l ≠ []) :
    (a :: l).getLast? = l.getLast? := by
  cases l with
  | nil => exact absurd rfl h
  | cons b t => exact List.getLast?_cons_cons

theorem mem_of_getLast?_eq_some {α : Type} {l : List α} {a : α}
    (h : l.getLast? = some a) : a ∈ l := by
  induction l with
  | nil => cases h
  | cons x rest ih =>
    cases hr : rest with
    | nil =>
      subst hr
      simp only [List.getLast?_singleton, Option.some.injEq] at h
      simp [h]
    | cons y t =>
      subst hr
      rw [List.getLast?_cons_cons] at h
      exact List.mem_cons_of_mem _ (ih h)

theorem getLast?_append_right {α : Type} (l1 l2 : List α) (h : l2 ≠ []) :
    (l1 ++ l2).getLast? = l2.getLast? := by
  induction l1 with
  | nil => simp
  | cons a rest ih =>
    rw [List.cons_append, getLast?_cons_of_ne_nil]
    · exact ih
    · intro hc
      rcases List.append_eq_nil.mp hc with ⟨_, h2⟩
      exact h h2

/-- The value a sequence of dict assignments leaves under key `k`: the
last assignment to `k` wins, else the key keeps its prior value. -/
theorem dictLookup_foldl_insert (ws : List (String × String)) (d : List (String × String))
    (k : String) :
    dictLookup (ws.foldl (fun d kv => dictInsert d kv.1 kv.2) d) k =
      match (ws.filter (fun kv => kv.1 = k)).getLast? with
      | some kv => some kv.2
      | none => dictLookup d k := by
  induction ws generalizing d with
  | nil => simp
  | cons kv rest ih =>
    rw [List.foldl_cons, ih]
    by_cases hrest : rest.filter (fun kv => kv.1 = k) = []
    · rw [hrest]
      by_cases hk : kv.1 = k
      · rw [List.filter_cons_of_pos (by simpa using hk), hrest]
        simp [dictLookup_dictInsert, hk]
      · rw [List.filter_cons_of_neg (by simpa using hk), hrest]
        simp only [List.getLast?_nil]
        rw [dictLookup_dictInsert, if_neg (fun h => hk h.symm)]
    · have hsplit : ((kv :: rest).filter (fun kv => kv.1 = k)).getLast? =
          (rest.filter (fun kv => kv.1 = k)).getLast? := by
        by_cases hk : kv.1 = k
        · rw [List.filter_cons_of_pos (by simpa using hk)]
          exact getLast?_cons_of_ne_nil _ _ hrest
        · rw [List.filter_cons_of_neg (by simpa using hk)]
      rw [hsplit]
      cases hlast : (rest.filter (fun kv => kv.1 = k)).getLast? with
      | some kv2 => rfl
      | none => exact absurd (List.getLast?_eq_none_iff.mp hlast) hrest

theorem dictInsert_forall (P : String × String → Prop) (d : List (String × String))
    (k v : String) (hd : ∀ kv ∈ d, P kv) (hkv : P (k, v)) :
    ∀ kv ∈ dictInsert d k v, P kv := by
  unfold dictInsert
  by_cases hc : (d.find? (fun kv => kv.1 = k)).isSome
  · rw [if_pos hc]
    intro kv hkv2
    rcases List.mem_map.mp hkv2 with ⟨kv0, hkv0, heq⟩
    by_cases h : kv0.1 = k
    · rw [if_pos h] at heq; exact heq ▸ hkv
    · rw [if_neg h] at heq; exact heq ▸ hd kv0 hkv0
  · rw [if_neg hc]
    intro kv hkv2
    rcases List.mem_append.mp hkv2 with h | h
    · exact hd kv h
    · rcases List.mem_singleton.mp h with rfl
      exact hkv

theorem foldl_insert_forall (P : String × String → Prop) (ws d : List (String × String))
    (hd : ∀ kv ∈ d, P kv) (hws : ∀ kv ∈ ws, P kv) :
    ∀ kv ∈ ws.foldl (fun d kv => dictInsert d kv.1 kv.2) d, P kv := by
  induction ws generalizing d with
  | nil => exact hd
  | cons kv0 rest ih =>
    rw [List.foldl_cons]
    exact ih _ (dictInsert_forall P d kv0.1 kv0.2 hd (hws kv0 (List.mem_cons_self _ _)))
      (fun kv h => hws kv (List.mem_cons_of_mem _ h))

theorem isSome_map_eq {α β : Type} (f : α → β) (o : Option α) :
    (o.map f).isSome = o.isSome := by cases o <;> rfl

theorem dictLookup_isSome_iff (d : List (String × String)) (k : String) :
    (dictLookup d k).isSome ↔ k ∈ d.map Prod.fst := by
  unfold dictLookup
  rw [isSome_map_eq, List.find?_isSome]
  constructor
  · rintro ⟨kv, hm, hp⟩
    exact List.mem_map.mpr ⟨kv, hm, by simpa using hp⟩
  · rintro h
    rcases List.mem_map.mp h with ⟨kv, hm, hk⟩
    exact ⟨kv, hm, by simpa using hk⟩

theorem foldl_flatMap_eq {α β γ : Type} (l : List α) (g : α → List β)
    (step : γ → β → γ) (init : γ) :
    l.foldl (fun acc x => (g x).foldl step acc) init = (l.flatMap g).foldl step init := by
  induction l generalizing init with
  | nil => simp
  | cons x rest ih => simp [List.foldl_append, ih]

/-- `parse_imports` is the dict of the flat-identifier writes collected
along the walk. -/
theorem parse_imports_eq (m : List Stmt) :
    parse_imports m = dictOfWrites ((walk m).flatMap stmtImportWrites) := by
  unfold parse_imports dictOfWrites
  exact foldl_flatMap_eq (walk m) stmtImportWrites _ []

theorem mem_keys_foldl_insert (ws d : List (String × String)) (k : String) :
    k ∈ (ws.foldl (fun d kv => dictInsert d kv.1 kv.2) d).map Prod.fst ↔
      k ∈ ws.map Prod.fst ∨ k ∈ d.map Prod.fst := by
  rw [← dictLookup_isSome_iff]
  rw [dictLookup_foldl_insert]
  cases hlast : (ws.filter (fun kv => kv.1 = k)).getLast? with
  | some kv =>
    simp only [Option.isSome_some, true_iff]
    left
    have hm := mem_of_getLast?_eq_some hlast
    have hmf := List.mem_filter.mp hm
    exact List.mem_map.mpr ⟨kv, hmf.1, by simpa using hmf.2⟩
  | none =>
    have hfilter : ws.filter (fun kv => kv.1 = k) = [] :=
      List.getLast?_eq_none_iff.mp hlast
    rw [dictLookup_isSome_iff]
    constructor
    · exact Or.inr
    · rintro (h | h)
      · exfalso
        rcases List.mem_map.mp h with ⟨kv, hm, hk⟩
        have hmem : kv ∈ ws.filter (fun kv => kv.1 = k) :=
          List.mem_filter.mpr ⟨hm, by simpa using hk⟩
        rw [hfilter] at hmem
        cases hmem
      · exact h

/-! ### Primitive graph lemmas -/

theorem containsNode_iff (G : Graph) (x : String) :
    containsNode G x = true ↔ (lookupNode G x).isSome = true := by
  unfold containsNode lookupNode
  rw [isSome_map_eq]

theorem lookupNode_add_node_self (G : Graph) (n : String) (a : NodeAttr) :
    lookupNode (add_node G n a) n = some a := by
  unfold add_node
  by_cases hc : containsNode G n
  · rw [if_pos hc]
    unfold lookupNode
    show ((G.nodes.map _).find? _).map _ = _
    rw [find?_key_map_update_self]
    unfold containsNode at hc
    rcases Option.isSome_iff_exists.mp hc with ⟨kv, hkv⟩
    rw [hkv]
    rfl
  · rw [if_neg hc]
    unfold lookupNode
    show ((G.nodes ++ [(n, a)]).find? _).map _ = _
    rw [find?_key_append]
    unfold containsNode at hc
    have hnone : G.nodes.find? (fun kv => kv.1 = n) = none := by
      cases hfind : G.nodes.find? (fun kv => kv.1 = n) with
      | none => rfl
      | some kv => rw [hfind] at hc; simp at hc
    rw [hnone]
    simp

theorem lookupNode_add_node_other (G : Graph) (n x : String) (a : NodeAttr)
    (hx : x ≠ n) : lookupNode (add_node G n a) x = lookupNode G x := by
  unfold add_node
  by_cases hc : containsNode G n
  · rw [if_pos hc]
    unfold lookupNode
    show ((G.nodes.map _).find? _).map _ = _
    rw [find?_key_map_update_other _ _ _ _ hx]
  · rw [if_neg hc]
    unfold lookupNode
    show ((G.nodes ++ [(n, a)]).find? _).map _ = _
    rw [find?_key_append]
    cases hfind : G.nodes.find? (fun kv => kv.1 = x) with
    | some kv => rfl
    | none =>
      simp only []
      rw [List.find?_cons_of_neg _ (by simpa using (Ne.symm hx)), List.find?_nil]

theorem lookupNode_ensureNode_of_some (G : Graph) (n x : String) (a : NodeAttr)
    (h : lookupNode G x = some a) : lookupNode (ensureNode G n) x = some a := by
  unfold ensureNode
  by_cases hc : containsNode G n
  · rw [if_pos hc]; exact h
  · rw [if_neg hc]
    unfold lookupNode at h ⊢
    show ((G.nodes ++ [(n, emptyAttr)]).find? _).map _ = _
    rw [find?_key_append]
    cases hfind : G.nodes.find? (fun kv => kv.1 = x) with
    | some kv => rw [hfind] at h; exact h
    | none => rw [hfind] at h; cases h

theorem lookupNode_ensureNode_other (G : Graph) (n x : String) (hx : x ≠ n) :
    lookupNode (ensureNode G n) x = lookupNode G x := by
  unfold ensureNode
  by_cases hc : containsNode G n
  · rw [if_pos hc]
  · rw [if_neg hc]
    unfold lookupNode
    show ((G.nodes ++ [(n, emptyAttr)]).find? _).map _ = _
    rw [find?_key_append]
    cases hfind : G.nodes.find? (fun kv => kv.1 = x) with
    | some kv => rfl
    | none =>
      simp only []
      rw [List.find?_cons_of_neg _ (by simpa using (Ne.symm hx)), List.find?_nil]

theorem lookupNode_ensureNode_self_isSome (G : Graph) (n : String) :
    (lookupNode (ensureNode G n) n).isSome = true := by
  unfold ensureNode
  by_cases hc : containsNode G n
  · rw [if_pos hc]
    exact (containsNode_iff G n).mp hc
  · rw [if_neg hc]
    unfold lookupNode
    show (((G.nodes ++ [(n, emptyAttr)]).find? _).map _).isSome = true
    rw [find?_key_append]
    unfold containsNode at hc
    have hnone : G.nodes.find? (fun kv => kv.1 = n) = none := by
      cases hfind : G.nodes.find? (fun kv => kv.1 = n) with
      | none => rfl
      | some kv => rw [hfind] at hc; simp at hc
    rw [hnone]
    simp

theorem lookupNode_add_edge_of_some (G : Graph) (u v x : String) (a : NodeAttr)
    (h : lookupNode G x = some a) : lookupNode (add_edge G u v) x = some a := by
  unfold add_edge
  have h1 := lookupNode_ensureNode_of_some G u x a h
  have h2 := lookupNode_ensureNode_of_some (ensureNode G u) v x a h1
  by_cases hc : (u, v) ∈ (ensureNode (ensureNode G u) v).edges
  · rw [if_pos hc]; exact h2
  · rw [if_neg hc]; exact h2

theorem lookupNode_mk_edges (nodes : List (String × NodeAttr))
    (edges1 edges2 : List (String × String)) (x : String) :
    lookupNode ⟨nodes, edges1⟩ x = lookupNode ⟨nodes, edges2⟩ x := rfl

theorem lookupNode_add_edge_other (G : Graph) (u v x : String)
    (hu : x ≠ u) (hv : x ≠ v) : lookupNode (add_edge G u v) x = lookupNode G x := by
  unfold add_edge
  have h1 := lookupNode_ensureNode_other G u x hu
  have h2 := lookupNode_ensureNode_other (ensureNode G u) v x hv
  by_cases hc : (u, v) ∈ (ensureNode (ensureNode G u) v).edges
  · rw [if_pos hc, h2, h1]
  · rw [if_neg hc]
    calc lookupNode _ x = lookupNode (ensureNode (ensureNode G u) v) x :=
          lookupNode_mk_edges _ _ _ x
      _ = lookupNode G x := by rw [h2, h1]

theorem edges_add_node (G : Graph) (n : String) (a : NodeAttr) :
    (add_node G n a).edges = G.edges := by
  unfold add_node
  by_cases hc : containsNode G n
  · rw [if_pos hc]
  · rw [if_neg hc]

theorem edges_ensureNode (G : Graph) (n : String) :
    (ensureNode G n).edges = G.edges := by
  unfold ensureNode
  by_cases hc : containsNode G n
  · rw [if_pos hc]
  · rw [if_neg hc]

theorem edges_ensure2 (G : Graph) (u v : String) :
    (ensureNode (ensureNode G u) v).edges = G.edges := by
  rw [edges_ensureNode, edges_ensureNode]

theorem mem_edges_add_edge (G : Graph) (u v : String) (e : String × String) :
    e ∈ (add_edge G u v).edges ↔ e ∈ G.edges ∨ e = (u, v) := by
  unfold add_edge
  by_cases hc : (u, v) ∈ (ensureNode (ensureNode G u) v).edges
  · rw [if_pos hc, edges_ensure2]
    rw [edges_ensure2] at hc
    constructor
    · exact Or.inl
    · rintro (h | rfl)
      · exact h
      · exact hc
  · rw [if_neg hc]
    show e ∈ (ensureNode (ensureNode G u) v).edges ++ [(u, v)] ↔ _
    rw [edges_ensure2, List.mem_append, List.mem_singleton]

/-! ### Replay lemmas: the graph after a list of operations -/

/-- The attribute an operation writes to identity `x`, if any. -/
def opWrite : Op → String → Option NodeAttr
  | .node n a, x => if n = x then some a else none
  | .edge _ _, _ => none

/-- The attributes successively written to `x` by a list of operations. -/
def writesTo (ops : List Op) (x : String) : List NodeAttr :=
  ops.filterMap (fun o => opWrite o x)

/-- Whether an operation mentions identity `x` at all. -/
def opTouches : Op → String → Bool
  | .node n _, x => n = x
  | .edge u v, x => u = x || v = x

theorem applyOps_cons (G : Graph) (o : Op) (ops : List Op) :
    applyOps G (o :: ops) = applyOps (applyOp G o) ops := rfl

theorem writesTo_cons (o : Op) (ops : List Op) (x : String) :
    writesTo (o :: ops) x =
      match opWrite o x with
      | some a => a :: writesTo ops x
      | none => writesTo ops x := by
  unfold writesTo
  cases h : opWrite o x with
  | some a => rw [List.filterMap_cons, h]
  | none => rw [List.filterMap_cons, h]

/-- Operations that never mention `x` leave its lookup unchanged. -/
theorem lookupNode_applyOps_untouched (ops : List Op) (G : Graph) (x : String)
    (h : ∀ o ∈ ops, opTouches o x = false) :
    lookupNode (applyOps G ops) x = lookupNode G x := by
  induction ops generalizing G with
  | nil => rfl
  | cons o rest ih =>
    rw [applyOps_cons, ih _ (fun o ho => h o (List.mem_cons_of_mem _ ho))]
    have ho := h o (List.mem_cons_self _ _)
    cases o with
    | node n a =>
      have : n ≠ x := by simpa [opTouches] using ho
      exact lookupNode_add_node_other G n x a (Ne.symm this)
    | edge u v =>
      have : u ≠ x ∧ v ≠ x := by simpa [opTouches] using ho
      exact lookupNode_add_edge_other G u v x (Ne.symm this.1) (Ne.symm this.2)

/-- Operations that never write an attribute to `x` preserve an existing
attribute (edge insertion creates `x` only when it is absent). -/
theorem lookupNode_applyOps_stable (ops : List Op) (G : Graph) (x : String) (a : NodeAttr)
    (hw : writesTo ops x = []) (h : lookupNode G x = some a) :
    lookupNode (applyOps G ops) x = some a := by
  induction ops generalizing G with
  | nil => exact h
  | cons o rest ih =>
    rw [applyOps_cons]
    have hw2 : writesTo rest x = [] := by
      rw [writesTo_cons] at hw
      cases ho : opWrite o x with
      | some b => rw [ho] at hw; cases hw
      | none => rw [ho] at hw; exact hw
    apply ih _ hw2
    cases o with
    | node n b =>
      have hn : n ≠ x := by
        intro hc
        rw [writesTo_cons] at hw
        have : opWrite (Op.node n b) x = some b := by simp [opWrite, hc]
        rw [this] at hw
        cases hw
      show lookupNode (add_node G n b) x = some a
      rw [lookupNode_add_node_other G n x b (Ne.symm hn)]
      exact h
    | edge u v => exact lookupNode_add_edge_of_some G u v x a h

/-- The last attribute written to `x` is the one found afterwards. -/
theorem lookupNode_applyOps_lastWrite (ops : List Op) (G : Graph) (x : String)
    (a : NodeAttr) (h : (writesTo ops x).getLast? = some a) :
    lookupNode (applyOps G ops) x = some a := by
  induction ops generalizing G with
  | nil => cases h
  | cons o rest ih =>
    rw [applyOps_cons]
    by_cases hrest : writesTo rest x = []
    · have ho : opWrite o x = some a := by
        rw [writesTo_cons] at h
        cases hw : opWrite o x with
        | some b =>
          rw [hw] at h
          rw [hrest] at h
          simp only [List.getLast?_singleton, Option.some.injEq] at h
          rw [h]
        | none => rw [hw] at h; rw [hrest] at h; cases h
      cases o with
      | node n b =>
        have hb : n = x ∧ b = a := by
          by_cases hn : n = x
          · refine ⟨hn, ?_⟩
            simpa [opWrite, hn] using ho
          · simp [opWrite, hn] at ho
        rcases hb with ⟨rfl, rfl⟩
        exact lookupNode_applyOps_stable rest _ _ _ hrest
          (lookupNode_add_node_self G _ _)
      | edge u v => simp [opWrite] at ho
    · apply ih
      rw [writesTo_cons] at h
      cases hw : opWrite o x with
      | some b =>
        rw [hw] at h
        rw [getLast?_cons_of_ne_nil _ _ hrest] at h
        exact h
      | none => rw [hw] at h; exact h

/-- After the replay, a touched identity is present in the node set. -/
theorem lookupNode_applyOp_isSome (G : Graph) (o : Op) (x : String)
    (h : (lookupNode G x).isSome = true) :
    (lookupNode (applyOp G o) x).isSome = true := by
  rcases Option.isSome_iff_exists.mp h with ⟨a, ha⟩
  cases o with
  | node n b =>
    by_cases hn : n = x
    · subst hn
      rw [show applyOp G (Op.node n b) = add_node G n b from rfl,
        lookupNode_add_node_self]
      rfl
    · rw [show applyOp G (Op.node n b) = add_node G n b from rfl,
        lookupNode_add_node_other G n x b (Ne.symm hn)]
      exact h
  | edge u v =>
    rw [show applyOp G (Op.edge u v) = add_edge G u v from rfl,
      lookupNode_add_edge_of_some G u v x a ha]
    rfl

theorem lookupNode_applyOps_isSome_of_isSome (ops : List Op) (G : Graph) (x : String)
    (h : (lookupNode G x).isSome = true) :
    (lookupNode (applyOps G ops) x).isSome = true := by
  induction ops generalizing G with
  | nil => exact h
  | cons o rest ih => exact ih _ (lookupNode_applyOp_isSome G o x h)

theorem lookupNode_applyOps_isSome_of_touched (ops : List Op) (G : Graph) (x : String)
    (h : ∃ o ∈ ops, opTouches o x = true) :
    (lookupNode (applyOps G ops) x).isSome = true := by
  induction ops generalizing G with
  | nil => rcases h with ⟨o, ho, _⟩; cases ho
  | cons o rest ih =>
    rcases h with ⟨o2, ho2, htouch⟩
    rcases List.mem_cons.mp ho2 with rfl | ho2
    · rw [applyOps_cons]
      apply lookupNode_applyOps_isSome_of_isSome
      cases o2 with
      | node n a =>
        have : n = x := by simpa [opTouches] using htouch
        subst this
        rw [show applyOp G (Op.node n a) = add_node G n a from rfl,
          lookupNode_add_node_self]
        rfl
      | edge u v =>
        have : u = x ∨ v = x := by simpa [opTouches] using htouch
        rw [show applyOp G (Op.edge u v) = add_edge G u v from rfl]
        unfold add_edge
        rcases this with rfl | rfl
        · by_cases hc : (u, v) ∈ (ensureNode (ensureNode G u) v).edges
          · rw [if_pos hc]
            rcases Option.isSome_iff_exists.mp
              (lookupNode_ensureNode_self_isSome G u) with ⟨b, hb⟩
            rw [lookupNode_ensureNode_of_some _ v u b hb]
            rfl
          · rw [if_neg hc]
            rcases Option.isSome_iff_exists.mp
              (lookupNode_ensureNode_self_isSome G u) with ⟨b, hb⟩
            have := lookupNode_ensureNode_of_some (ensureNode G u) v u b hb
            calc (lookupNode _ u).isSome
                = (lookupNode (ensureNode (ensureNode G u) v) u).isSome := by
                  rw [lookupNode_mk_edges _ _ (ensureNode (ensureNode G u) v).edges]
              _ = true := by rw [this]; rfl
        · by_cases hc : (u, v) ∈ (ensureNode (ensureNode G u) v).edges
          · rw [if_pos hc]
            exact lookupNode_ensureNode_self_isSome (ensureNode G u) v
          · rw [if_neg hc]
            calc (lookupNode _ v).isSome
                = (lookupNode (ensureNode (ensureNode G u) v) v).isSome := by
                  rw [lookupNode_mk_edges _ _ (ensureNode (ensureNode G u) v).edges]
              _ = true := lookupNode_ensureNode_self_isSome (ensureNode G u) v
    · rw [applyOps_cons]
      exact ih _ ⟨o2, ho2, htouch⟩

/-- Edge membership after the replay: exactly the old edges plus the
edge operations performed. -/
theorem mem_edges_applyOps (ops : List Op) (G : Graph) (e : String × String) :
    e ∈ (applyOps G ops).edges ↔ e ∈ G.edges ∨ (Op.edge e.1 e.2) ∈ ops := by
  induction ops generalizing G with
  | nil => simp [applyOps]
  | cons o rest ih =>
    rw [applyOps_cons, ih]
    cases o with
    | node n a =>
      rw [show (applyOp G (Op.node n a)).edges = G.edges from edges_add_node G n a]
      constructor
      · rintro (h | h)
        · exact Or.inl h
        · exact Or.inr (List.mem_cons_of_mem _ h)
      · rintro (h | h)
        · exact Or.inl h
        · rcases List.mem_cons.mp h with heq | h
          · cases heq
          · exact Or.inr h
    | edge u v =>
      rw [show (applyOp G (Op.edge u v)) = add_edge G u v from rfl,
        mem_edges_add_edge]
      constructor
      · rintro ((h | h) | h)
        · exact Or.inl h
        · right
          subst h
          exact List.mem_cons_self _ _
        · exact Or.inr (List.mem_cons_of_mem _ h)
      · rintro (h | h)
        · exact Or.inl (Or.inl h)
        · rcases List.mem_cons.mp h with heq | h
          · left; right
            cases e
            simp only [Op.edge.injEq] at heq
            simp [heq]
          · exact Or.inr h

/-! ### Structural invariants of replayed graphs -/

theorem nodes_keys_add_node (G : Graph) (n : String) (a : NodeAttr)
    (h : ((G.nodes.map Prod.fst)).Nodup) :
    ((add_node G n a).nodes.map Prod.fst).Nodup := by
  unfold add_node
  by_cases hc : containsNode G n
  · rw [if_pos hc]
    show ((G.nodes.map _).map Prod.fst).Nodup
    rw [keys_map_update]
    exact h
  · rw [if_neg hc]
    show ((G.nodes ++ [(n, a)]).map Prod.fst).Nodup
    rw [List.map_append]
    rw [List.nodup_append]
    refine ⟨h, List.nodup_singleton _, ?_⟩
    intro k hk hk2
    simp only [List.map_cons, List.map_nil, List.mem_singleton] at hk2
    subst hk2
    unfold containsNode at hc
    rcases List.mem_map.mp hk with ⟨kv, hkv, hfst⟩
    have : (G.nodes.find? (fun kv => kv.1 = k)).isSome :=
      List.find?_isSome.mpr ⟨kv, hkv, by simpa using hfst⟩
    exact hc (by simpa using this)

theorem nodes_keys_ensureNode (G : Graph) (n : String)
    (h : ((G.nodes.map Prod.fst)).Nodup) :
    ((ensureNode G n).nodes.map Prod.fst).Nodup := by
  unfold ensureNode
  by_cases hc : containsNode G n
  · rw [if_pos hc]; exact h
  · rw [if_neg hc]
    show ((G.nodes ++ [(n, emptyAttr)]).map Prod.fst).Nodup
    rw [List.map_append, List.nodup_append]
    refine ⟨h, List.nodup_singleton _, ?_⟩
    intro k hk hk2
    simp only [List.map_cons, List.map_nil, List.mem_singleton] at hk2
    subst hk2
    unfold containsNode at hc
    rcases List.mem_map.mp hk with ⟨kv, hkv, hfst⟩
    have : (G.nodes.find? (fun kv => kv.1 = k)).isSome :=
      List.find?_isSome.mpr ⟨kv, hkv, by simpa using hfst⟩
    exact hc (by simpa using this)

theorem nodes_keys_applyOp (G : Graph) (o : Op)
    (h : ((G.nodes.map Prod.fst)).Nodup) :
    ((applyOp G o).nodes.map Prod.fst).Nodup := by
  cases o with
  | node n a => exact nodes_keys_add_node G n a h
  | edge u v =>
    show ((add_edge G u v).nodes.map Prod.fst).Nodup
    unfold add_edge
    by_cases hc : (u, v) ∈ (ensureNode (ensureNode G u) v).edges
    · rw [if_pos hc]
      exact nodes_keys_ensureNode _ v (nodes_keys_ensureNode _ u h)
    · rw [if_neg hc]
      show ((ensureNode (ensureNode G u) v).nodes.map Prod.fst).Nodup
      exact nodes_keys_ensureNode _ v (nodes_keys_ensureNode _ u h)

theorem nodes_keys_applyOps (ops : List Op) (G : Graph)
    (h : ((G.nodes.map Prod.fst)).Nodup) :
    (((applyOps G ops).nodes.map Prod.fst)).Nodup := by
  induction ops generalizing G with
  | nil => exact h
  | cons o rest ih => exact ih _ (nodes_keys_applyOp G o h)

theorem edges_nodup_applyOp (G : Graph) (o : Op) (h : G.edges.Nodup) :
    (applyOp G o).edges.Nodup := by
  cases o with
  | node n a =>
    rw [show (applyOp G (Op.node n a)).edges = G.edges from edges_add_node G n a]
    exact h
  | edge u v =>
    show (add_edge G u v).edges.Nodup
    unfold add_edge
    by_cases hc : (u, v) ∈ (ensureNode (ensureNode G u) v).edges
    · rw [if_pos hc, edges_ensure2]; exact h
    · rw [if_neg hc]
      show ((ensureNode (ensureNode G u) v).edges ++ [(u, v)]).Nodup
      rw [edges_ensure2] at hc ⊢
      rw [List.nodup_append]
      exact ⟨h, List.nodup_singleton _, by
        intro e he he2
        simp only [List.mem_singleton] at he2
        subst he2
        exact hc he⟩

theorem edges_nodup_applyOps (ops : List Op) (G : Graph) (h : G.edges.Nodup) :
    (applyOps G ops).edges.Nodup := by
  induction ops generalizing G with
  | nil => exact h
  | cons o rest ih => exact ih _ (edges_nodup_applyOp G o h)

/-- Every edge endpoint is a present node. -/
def edgesClosed (G : Graph) : Prop :=
  ∀ e ∈ G.edges, containsNode G e.1 = true ∧ containsNode G e.2 = true

theorem containsNode_applyOp_mono (G : Graph) (o : Op) (x : String)
    (h : containsNode G x = true) : containsNode (applyOp G o) x = true := by
  rw [containsNode_iff] at h ⊢
  exact lookupNode_applyOp_isSome G o x h

theorem containsNode_ensureNode_mono (G : Graph) (n x : String)
    (h : containsNode G x = true) : containsNode (ensureNode G n) x = true := by
  rw [containsNode_iff] at h ⊢
  rcases Option.isSome_iff_exists.mp h with ⟨a, ha⟩
  rw [lookupNode_ensureNode_of_some G n x a ha]
  rfl

theorem containsNode_ensureNode_self (G : Graph) (n : String) :
    containsNode (ensureNode G n) n = true := by
  rw [containsNode_iff]
  exact lookupNode_ensureNode_self_isSome G n

theorem edgesClosed_applyOp (G : Graph) (o : Op) (h : edgesClosed G) :
    edgesClosed (applyOp G o) := by
  cases o with
  | node n a =>
    intro e he
    rw [show (applyOp G (Op.node n a)).edges = G.edges from edges_add_node G n a] at he
    exact ⟨containsNode_applyOp_mono G _ e.1 (h e he).1,
      containsNode_applyOp_mono G _ e.2 (h e he).2⟩
  | edge u v =>
    intro e he
    rw [show applyOp G (Op.edge u v) = add_edge G u v from rfl] at he ⊢
    have hnodes : (add_edge G u v).nodes = (ensureNode (ensureNode G u) v).nodes := by
      unfold add_edge
      by_cases hc : (u, v) ∈ (ensureNode (ensureNode G u) v).edges
      · rw [if_pos hc]
      · rw [if_neg hc]
    have hcont : ∀ y, containsNode (ensureNode (ensureNode G u) v) y = true →
        containsNode (add_edge G u v) y = true := by
      intro y hy
      unfold containsNode at hy ⊢
      rw [hnodes]
      exact hy
    rcases (mem_edges_add_edge G u v e).mp he with hbase | rfl
    · have h1 := (h e hbase).1
      have h2 := (h e hbase).2
      exact ⟨hcont _ (containsNode_ensureNode_mono _ v _
          (containsNode_ensureNode_mono _ u _ h1)),
        hcont _ (containsNode_ensureNode_mono _ v _
          (containsNode_ensureNode_mono _ u _ h2))⟩
    · constructor
      · exact hcont _ (containsNode_ensureNode_mono _ v _
          (containsNode_ensureNode_self G u))
      · exact hcont _ (containsNode_ensureNode_self (ensureNode G u) v)

theorem edgesClosed_applyOps (ops : List Op) (G : Graph) (h : edgesClosed G) :
    edgesClosed (applyOps G ops) := by
  induction ops generalizing G with
  | nil => exact h
  | cons o rest ih => exact ih _ (edgesClosed_applyOp G o h)

/-! ### Characterizing the operations one file contributes -/

theorem mem_writesTo_iff (ops : List Op) (x : String) (a : NodeAttr) :
    a ∈ writesTo ops x ↔ Op.node x a ∈ ops := by
  unfold writesTo
  rw [List.mem_filterMap]
  constructor
  · rintro ⟨o, ho, hw⟩
    cases o with
    | node n b =>
      simp only [opWrite] at hw
      by_cases hn : n = x
      · rw [if_pos hn] at hw
        cases hw
        exact hn ▸ ho
      · rw [if_neg hn] at hw; cases hw
    | edge u v => cases hw
  · intro h
    refine ⟨Op.node x a, h, ?_⟩
    simp [opWrite]

/-- The node writes one file's iteration performs, by shape. -/
inductive WriteShape (p : String) (m : List Stmt) : String → NodeAttr → Prop where
  | file : WriteShape p m p attrFile
  | func (name : String) (body : List Stmt)
      (h : Stmt.functionDef name body ∈ walk m) :
      WriteShape p m (p ++ "::" ++ name) attrFunction
  | cls (name : String) (body : List Stmt)
      (h : Stmt.classDef name body ∈ walk m) :
      WriteShape p m (p ++ "::" ++ name) attrClass
  | method (cname : String) (cbody : List Stmt) (mname : String) (mbody : List Stmt)
      (hc : Stmt.classDef cname cbody ∈ walk m)
      (hm : Stmt.functionDef mname mbody ∈ cbody) :
      WriteShape p m (p ++ "::" ++ cname ++ "::" ++ mname) attrFunction
  | mod (k : String) (h : k ∈ importKeys m) : WriteShape p m k attrModule

/-- The edges one file's iteration inserts, by shape. -/
inductive EdgeShape (p : String) (m : List Stmt) : String → String → Prop where
  | func (name : String) (body : List Stmt)
      (h : Stmt.functionDef name body ∈ walk m) :
      EdgeShape p m p (p ++ "::" ++ name)
  | cls (name : String) (body : List Stmt)
      (h : Stmt.classDef name body ∈ walk m) :
      EdgeShape p m p (p ++ "::" ++ name)
  | method (cname : String) (cbody : List Stmt) (mname : String) (mbody : List Stmt)
      (hc : Stmt.classDef cname cbody ∈ walk m)
      (hm : Stmt.functionDef mname mbody ∈ cbody) :
      EdgeShape p m (p ++ "::" ++ cname) (p ++ "::" ++ cname ++ "::" ++ mname)
  | ref (k : String) (h : k ∈ importKeys m) : EdgeShape p m p k

theorem mem_node_fileOps_iff (p : String) (m : List Stmt) (x : String) (a : NodeAttr) :
    Op.node x a ∈ fileOps (p, m) ↔ WriteShape p m x a := by
  unfold fileOps
  constructor
  · intro h
    rcases List.mem_cons.mp h with heq | h
    · rcases Op.node.injEq .. ▸ heq with ⟨rfl, rfl⟩
      exact WriteShape.file
    · rcases List.mem_append.mp h with h | h
      · rcases List.mem_flatMap.mp h with ⟨s, hs, hop⟩
        cases s with
        | functionDef name body =>
          rcases List.mem_cons.mp hop with heq | hop
          · rcases Op.node.injEq .. ▸ heq with ⟨rfl, rfl⟩
            exact WriteShape.func name body hs
          · rcases List.mem_cons.mp hop with heq | hop
            · cases heq
            · cases hop
        | classDef name body =>
          rcases List.mem_cons.mp hop with heq | hop
          · rcases Op.node.injEq .. ▸ heq with ⟨rfl, rfl⟩
            exact WriteShape.cls name body hs
          · rcases List.mem_cons.mp hop with heq | hop
            · cases heq
            · rcases List.mem_flatMap.mp hop with ⟨item, hitem, hop2⟩
              cases item with
              | functionDef mname mbody =>
                rcases List.mem_cons.mp hop2 with heq | hop2
                · rcases Op.node.injEq .. ▸ heq with ⟨rfl, rfl⟩
                  exact WriteShape.method name body mname mbody hs hitem
                · rcases List.mem_cons.mp hop2 with heq | hop2
                  · cases heq
                  · cases hop2
              | importS ns => cases hop2
              | importFrom mo ns => cases hop2
              | classDef n2 b2 => cases hop2
              | other b2 => cases hop2
        | importS ns => cases hop
        | importFrom mo ns => cases hop
        | other b => cases hop
      · unfold importOps at h
        rcases List.mem_flatMap.mp h with ⟨kv, hkv, hop⟩
        rcases List.mem_cons.mp hop with heq | hop
        · rcases Op.node.injEq .. ▸ heq with ⟨rfl, rfl⟩
          exact WriteShape.mod kv.1 (List.mem_map.mpr ⟨kv, hkv, rfl⟩)
        · rcases List.mem_cons.mp hop with heq | hop
          · cases heq
          · cases hop
  · intro h
    cases h with
    | file => exact List.mem_cons_self _ _
    | func name body hmem =>
      apply List.mem_cons_of_mem
      apply List.mem_append_left
      exact List.mem_flatMap.mpr ⟨_, hmem, List.mem_cons_self _ _⟩
    | cls name body hmem =>
      apply List.mem_cons_of_mem
      apply List.mem_append_left
      exact List.mem_flatMap.mpr ⟨_, hmem, List.mem_cons_self _ _⟩
    | method cname cbody mname mbody hc hm =>
      apply List.mem_cons_of_mem
      apply List.mem_append_left
      refine List.mem_flatMap.mpr ⟨_, hc, ?_⟩
      apply List.mem_cons_of_mem
      apply List.mem_cons_of_mem
      exact List.mem_flatMap.mpr ⟨_, hm, List.mem_cons_self _ _⟩
    | mod k hmem =>
      apply List.mem_cons_of_mem
      apply List.mem_append_right
      unfold importOps
      rcases List.mem_map.mp hmem with ⟨kv, hkv, rfl⟩
      exact List.mem_flatMap.mpr ⟨kv, hkv, List.mem_cons_self _ _⟩

theorem mem_edge_fileOps_iff (p : String) (m : List Stmt) (u v : String) :
    Op.edge u v ∈ fileOps (p, m) ↔ EdgeShape p m u v := by
  unfold fileOps
  constructor
  · intro h
    rcases List.mem_cons.mp h with heq | h
    · cases heq
    · rcases List.mem_append.mp h with h | h
      · rcases List.mem_flatMap.mp h with ⟨s, hs, hop⟩
        cases s with
        | functionDef name body =>
          rcases List.mem_cons.mp hop with heq | hop
          · cases heq
          · rcases List.mem_cons.mp hop with heq | hop
            · rcases Op.edge.injEq .. ▸ heq with ⟨rfl, rfl⟩
              exact EdgeShape.func name body hs
            · cases hop
        | classDef name body =>
          rcases List.mem_cons.mp hop with heq | hop
          · cases heq
          · rcases List.mem_cons.mp hop with heq | hop
            · rcases Op.edge.injEq .. ▸ heq with ⟨rfl, rfl⟩
              exact EdgeShape.cls name body hs
            · rcases List.mem_flatMap.mp hop with ⟨item, hitem, hop2⟩
              cases item with
              | functionDef mname mbody =>
                rcases List.mem_cons.mp hop2 with heq | hop2
                · cases heq
                · rcases List.mem_cons.mp hop2 with heq | hop2
                  · rcases Op.edge.injEq .. ▸ heq with ⟨rfl, rfl⟩
                    exact EdgeShape.method name body mname mbody hs hitem
                  · cases hop2
              | importS ns => cases hop2
              | importFrom mo ns => cases hop2
              | classDef n2 b2 => cases hop2
              | other b2 => cases hop2
        | importS ns => cases hop
        | importFrom mo ns => cases hop
        | other b => cases hop
      · unfold importOps at h
        rcases List.mem_flatMap.mp h with ⟨kv, hkv, hop⟩
        rcases List.mem_cons.mp hop with heq | hop
        · cases heq
        · rcases List.mem_cons.mp hop with heq | hop
          · rcases Op.edge.injEq .. ▸ heq with ⟨rfl, rfl⟩
            exact EdgeShape.ref kv.1 (List.mem_map.mpr ⟨kv, hkv, rfl⟩)
          · cases hop
  · intro h
    cases h with
    | func name body hmem =>
      apply List.mem_cons_of_mem
      apply List.mem_append_left
      refine List.mem_flatMap.mpr ⟨_, hmem, ?_⟩
      exact List.mem_cons_of_mem _ (List.mem_cons_self _ _)
    | cls name body hmem =>
      apply List.mem_cons_of_mem
      apply List.mem_append_left
      refine List.mem_flatMap.mpr ⟨_, hmem, ?_⟩
      exact List.mem_cons_of_mem _ (List.mem_cons_self _ _)
    | method cname cbody mname mbody hc hm =>
      apply List.mem_cons_of_mem
      apply List.mem_append_left
      refine List.mem_flatMap.mpr ⟨_, hc, ?_⟩
      apply List.mem_cons_of_mem
      apply List.mem_cons_of_mem
      refine List.mem_flatMap.mpr ⟨_, hm, ?_⟩
      exact List.mem_cons_of_mem _ (List.mem_cons_self _ _)
    | ref k hmem =>
      apply List.mem_cons_of_mem
      apply List.mem_append_right
      unfold importOps
      rcases List.mem_map.mp hmem with ⟨kv, hkv, rfl⟩
      refine List.mem_flatMap.mpr ⟨kv, hkv, ?_⟩
      exact List.mem_cons_of_mem _ (List.mem_cons_self _ _)

/-! ### String lemmas: identities built with the reserved separator -/

theorem data_sep (p x : String) :
    (p ++ "::" ++ x).data = p.data ++ ':' :: ':' :: x.data := by
  rw [String.data_append, String.data_append]
  show (p.data ++ [':', ':']) ++ x.data = _
  simp

theorem data_sep2 (p c m : String) :
    (p ++ "::" ++ c ++ "::" ++ m).data =
      p.data ++ ':' :: ':' :: (c.data ++ ':' :: ':' :: m.data) := by
  show ((p ++ "::" ++ c) ++ "::" ++ m).data = _
  rw [data_sep (p ++ "::" ++ c) m, data_sep p c]
  simp

theorem colon_mem_sep (p x : String) : ':' ∈ (p ++ "::" ++ x).data := by
  rw [data_sep]
  exact List.mem_append_right _ (List.mem_cons_self _ _)

/-- Splitting at the first occurrence of a separator character. -/
theorem first_sep_split (c : Char) :
    ∀ (l1 l2 r1 r2 : List Char), c ∉ l1 → c ∉ l2 →
      l1 ++ c :: r1 = l2 ++ c :: r2 → l1 = l2 ∧ r1 = r2 := by
  intro l1
  induction l1 with
  | nil =>
    intro l2 r1 r2 _ h2 heq
    cases l2 with
    | nil => simpa using heq
    | cons d t =>
      exfalso
      simp only [List.nil_append, List.cons_append, List.cons.injEq] at heq
      exact h2 (heq.1 ▸ List.mem_cons_self _ _)
  | cons d t ih =>
    intro l2 r1 r2 h1 h2 heq
    cases l2 with
    | nil =>
      exfalso
      simp only [List.nil_append, List.cons_append, List.cons.injEq] at heq
      exact h1 (heq.1 ▸ List.mem_cons_self _ _)
    | cons d2 t2 =>
      simp only [List.cons_append, List.cons.injEq] at heq
      have ht := ih t2 r1 r2 (fun hc => h1 (List.mem_cons_of_mem _ hc))
        (fun hc => h2 (List.mem_cons_of_mem _ hc)) heq.2
      exact ⟨by rw [heq.1, ht.1], ht.2⟩

/-- Identities `p::x` with colon-free `p` decompose uniquely. -/
theorem sep_inj (p1 x1 p2 x2 : String)
    (h1 : ':' ∉ p1.data) (h2 : ':' ∉ p2.data)
    (heq : p1 ++ "::" ++ x1 = p2 ++ "::" ++ x2) : p1 = p2 ∧ x1 = x2 := by
  have hd : p1.data ++ ':' :: ':' :: x1.data = p2.data ++ ':' :: ':' :: x2.data := by
    rw [← data_sep, ← data_sep, heq]
  have hs := first_sep_split ':' p1.data p2.data _ _ h1 h2 hd
  refine ⟨String.ext_iff.mpr hs.1, String.ext_iff.mpr ?_⟩
  have := hs.2
  simpa using this

/-- A colon-free identity is never a separator-built one. -/
theorem colonFree_ne_sep (s p x : String) (hs : ':' ∉ s.data) :
    s ≠ p ++ "::" ++ x := by
  intro hc
  exact hs (hc ▸ colon_mem_sep p x)

/-- A walk-level declaration node is never a method node. -/
theorem decl_ne_method (p1 n1 p2 c2 m2 : String)
    (hp1 : ':' ∉ p1.data) (hp2 : ':' ∉ p2.data) (hn1 : ':' ∉ n1.data) :
    p1 ++ "::" ++ n1 ≠ p2 ++ "::" ++ c2 ++ "::" ++ m2 := by
  intro hc
  have hd : p1.data ++ ':' :: ':' :: n1.data =
      p2.data ++ ':' :: ':' :: (c2.data ++ ':' :: ':' :: m2.data) := by
    rw [← data_sep, ← data_sep2, hc]
  have hs := first_sep_split ':' p1.data p2.data _ _ hp1 hp2 hd
  have htail : n1.data = c2.data ++ ':' :: ':' :: m2.data := by
    have := hs.2
    simpa using this
  apply hn1
  rw [htail]
  exact List.mem_append_right _ (List.mem_cons_self _ _)

/-- Method identities decompose uniquely. -/
theorem method_inj (p1 c1 m1 p2 c2 m2 : String)
    (hp1 : ':' ∉ p1.data) (hp2 : ':' ∉ p2.data)
    (hc1 : ':' ∉ c1.data) (hc2 : ':' ∉ c2.data)
    (heq : p1 ++ "::" ++ c1 ++ "::" ++ m1 = p2 ++ "::" ++ c2 ++ "::" ++ m2) :
    p1 = p2 ∧ c1 = c2 ∧ m1 = m2 := by
  have hd : p1.data ++ ':' :: ':' :: (c1.data ++ ':' :: ':' :: m1.data) =
      p2.data ++ ':' :: ':' :: (c2.data ++ ':' :: ':' :: m2.data) := by
    rw [← data_sep2, ← data_sep2, heq]
  have hs := first_sep_split ':' p1.data p2.data _ _ hp1 hp2 hd
  have htail : c1.data ++ ':' :: ':' :: m1.data = c2.data ++ ':' :: ':' :: m2.data := by
    have := hs.2
    simpa using this
  have hs2 := first_sep_split ':' c1.data c2.data _ _ hc1 hc2 htail
  refine ⟨String.ext_iff.mpr hs.1, String.ext_iff.mpr hs2.1, String.ext_iff.mpr ?_⟩
  have := hs2.2
  simpa using this

/-! ### Extracting facts from the well-formedness booleans -/

theorem nameOK_colonFree (s : String) (h : nameOK s = true) : ':' ∉ s.data := by
  unfold nameOK at h
  rw [Bool.and_eq_true] at h
  intro hc
  have := List.all_eq_true.mp h.2 ':' hc
  simp at this

theorem dottedOK_colonFree (s : String) (h : dottedOK s = true) : ':' ∉ s.data := by
  unfold dottedOK at h
  intro hc
  have := List.all_eq_true.mp h ':' hc
  simp at this

theorem dottedOK_slashFree (s : String) (h : dottedOK s = true) : '/' ∉ s.data := by
  unfold dottedOK at h
  intro hc
  have := List.all_eq_true.mp h '/' hc
  simp at this

theorem pathOK_colonFree (p : String) (h : pathOK p = true) : ':' ∉ p.data := by
  unfold pathOK at h
  rw [Bool.and_eq_true] at h
  intro hc
  have := List.all_eq_true.mp h.2 ':' hc
  simp at this

theorem pathOK_slash_mem (p : String) (h : pathOK p = true) : '/' ∈ p.data := by
  unfold pathOK at h
  rw [Bool.and_eq_true] at h
  rcases List.any_eq_true.mp h.1 with ⟨c, hc, heq⟩
  have : c = '/' := by simpa using heq
  exact this ▸ hc

theorem stmtOK_children (s : Stmt) (h : stmtOK s = true) : stmtsOK s.children = true := by
  cases s with
  | importS ns => rfl
  | importFrom mo ns => rfl
  | functionDef n b =>
    unfold stmtOK at h
    rw [Bool.and_eq_true] at h
    exact h.2
  | classDef n b =>
    unfold stmtOK at h
    rw [Bool.and_eq_true] at h
    exact h.2
  | other b => exact h

theorem stmtOK_of_mem_stmtsAll (q : List Stmt) (s : Stmt)
    (hq : stmtsOK q = true) : s ∈ stmtsAll q → stmtOK s = true := by
  generalize hn : sizeList q = n
  induction n using Nat.strong_induction_on generalizing q with
  | _ n ih =>
  intro hs
  cases q with
  | nil => cases hs
  | cons u rest =>
    have hq2 : stmtOK u = true ∧ stmtsOK rest = true := by
      have h0 : (stmtOK u && stmtsOK rest) = true := hq
      rw [Bool.and_eq_true] at h0
      exact h0
    rw [stmtsAll] at hs
    rcases List.mem_append.mp hs with hs | hs
    · rw [stmtAll_eq] at hs
      rcases List.mem_cons.mp hs with rfl | hs
      · exact hq2.1
      · refine ih (sizeList u.children) ?_ u.children (stmtOK_children u hq2.1) rfl hs
        subst hn
        have h1 := Stmt.size_children u
        simp [sizeList]
        omega
    · refine ih (sizeList rest) ?_ rest hq2.2 rfl hs
      subst hn
      have h1 := Stmt.size_pos u
      simp [sizeList]
      omega

theorem stmtOK_of_mem_walk (m : List Stmt) (s : Stmt)
    (hm : stmtsOK m = true) (hs : s ∈ walk m) : stmtOK s = true :=
  stmtOK_of_mem_stmtsAll m s hm ((mem_walk_iff m s).mp hs)

theorem walked_functionDef_nameOK (m : List Stmt) (name : String) (body : List Stmt)
    (hm : stmtsOK m = true) (hs : Stmt.functionDef name body ∈ walk m) :
    nameOK name = true := by
  have h0 := stmtOK_of_mem_walk m _ hm hs
  unfold stmtOK at h0
  rw [Bool.and_eq_true] at h0
  exact h0.1

theorem walked_classDef_nameOK (m : List Stmt) (name : String) (body : List Stmt)
    (hm : stmtsOK m = true) (hs : Stmt.classDef name body ∈ walk m) :
    nameOK name = true := by
  have h0 := stmtOK_of_mem_walk m _ hm hs
  unfold stmtOK at h0
  rw [Bool.and_eq_true] at h0
  exact h0.1

theorem method_nameOK (m : List Stmt) (cname : String) (cbody : List Stmt)
    (mname : String) (mbody : List Stmt) (hm : stmtsOK m = true)
    (hc : Stmt.classDef cname cbody ∈ walk m)
    (hmm : Stmt.functionDef mname mbody ∈ cbody) : nameOK mname = true := by
  have hwalk : Stmt.functionDef mname mbody ∈ walk m :=
    mem_walk_of_child m _ _ hc (by rw [Stmt.children]; exact hmm)
  exact walked_functionDef_nameOK m mname mbody hm hwalk

/-! ### Import keys of a well-formed file -/

theorem mem_importKeys_iff (m : List Stmt) (k : String) :
    k ∈ importKeys m ↔ ∃ s ∈ walk m, ∃ kv ∈ stmtImportWrites s, kv.1 = k := by
  unfold importKeys
  rw [parse_imports_eq]
  unfold dictOfWrites
  rw [mem_keys_foldl_insert]
  simp only [List.map_nil, List.not_mem_nil, or_false]
  constructor
  · intro h
    rcases List.mem_map.mp h with ⟨kv, hkv, rfl⟩
    rcases List.mem_flatMap.mp hkv with ⟨s, hs, hkv2⟩
    exact ⟨s, hs, kv, hkv2, rfl⟩
  · rintro ⟨s, hs, kv, hkv, rfl⟩
    exact List.mem_map.mpr ⟨kv, List.mem_flatMap.mpr ⟨s, hs, hkv⟩, rfl⟩

theorem flatName_ok (mo : Option String) (n : String)
    (hmo : dottedOK (mo.getD "") = true) (hn : dottedOK n = true) :
    ':' ∉ (flatName mo n).data ∧ '/' ∉ (flatName mo n).data := by
  show ':' ∉ (if mo.getD "" = "" then n else mo.getD "" ++ "." ++ n).data ∧
    '/' ∉ (if mo.getD "" = "" then n else mo.getD "" ++ "." ++ n).data
  by_cases h : mo.getD "" = ""
  · rw [if_pos h]
    exact ⟨dottedOK_colonFree n hn, dottedOK_slashFree n hn⟩
  · rw [if_neg h]
    have hdata : (mo.getD "" ++ "." ++ n).data = (mo.getD "").data ++ '.' :: n.data := by
      rw [String.data_append, String.data_append]
      show ((mo.getD "").data ++ ['.']) ++ n.data = _
      simp
    rw [hdata]
    constructor
    · intro hc
      rcases List.mem_append.mp hc with hc | hc
      · exact dottedOK_colonFree _ hmo hc
      · rcases List.mem_cons.mp hc with hc | hc
        · cases hc
        · exact dottedOK_colonFree n hn hc
    · intro hc
      rcases List.mem_append.mp hc with hc | hc
      · exact dottedOK_slashFree _ hmo hc
      · rcases List.mem_cons.mp hc with hc | hc
        · cases hc
        · exact dottedOK_slashFree n hn hc

theorem import_key_ok (m : List Stmt) (hm : stmtsOK m = true) (k : String)
    (hk : k ∈ importKeys m) : ':' ∉ k.data ∧ '/' ∉ k.data := by
  rcases (mem_importKeys_iff m k).mp hk with ⟨s, hs, kv, hkv, hfst⟩
  have hsOK := stmtOK_of_mem_walk m s hm hs
  cases s with
  | importS ns =>
    simp only [stmtImportWrites] at hkv
    rcases List.mem_map.mp hkv with ⟨n, hn, rfl⟩
    have hd : dottedOK n = true := by
      unfold stmtOK at hsOK
      exact List.all_eq_true.mp hsOK n hn
    rcases hfst
    exact ⟨dottedOK_colonFree n hd, dottedOK_slashFree n hd⟩
  | importFrom mo ns =>
    simp only [stmtImportWrites] at hkv
    rcases List.mem_map.mp hkv with ⟨n, hn, rfl⟩
    unfold stmtOK at hsOK
    rw [Bool.and_eq_true] at hsOK
    have hd : dottedOK n = true := List.all_eq_true.mp hsOK.2 n hn
    rcases hfst
    exact flatName_ok mo n hsOK.1 hd
  | functionDef n b => cases hkv
  | classDef n b => cases hkv
  | other b => cases hkv

theorem mem_funcNames (m : List Stmt) (n : String) (b : List Stmt)
    (h : Stmt.functionDef n b ∈ walk m) : n ∈ funcNames m :=
  List.mem_filterMap.mpr ⟨_, h, rfl⟩

theorem mem_classNames (m : List Stmt) (n : String) (b : List Stmt)
    (h : Stmt.classDef n b ∈ walk m) : n ∈ classNames m :=
  List.mem_filterMap.mpr ⟨_, h, rfl⟩

theorem noClash_elim (m : List Stmt) (h : noClash m = true) (n : String)
    (b b2 : List Stmt) (hf : Stmt.functionDef n b ∈ walk m)
    (hc : Stmt.classDef n b2 ∈ walk m) : False := by
  unfold noClash at h
  have h2 := List.all_eq_true.mp h n (mem_funcNames m n b hf)
  exact of_decide_eq_true h2 (mem_classNames m n b2 hc)

/-! ### Agreement of node writes across a well-formed file list -/

theorem nodup_fst_eq {α : Type} (files : List (String × α))
    (h : (files.map Prod.fst).Nodup) (p : String) (m1 m2 : α)
    (h1 : (p, m1) ∈ files) (h2 : (p, m2) ∈ files) : m1 = m2 := by
  induction files with
  | nil => cases h1
  | cons f rest ih =>
    rw [List.map_cons, List.nodup_cons] at h
    rcases List.mem_cons.mp h1 with hf1 | hr1
    · rcases List.mem_cons.mp h2 with hf2 | hr2
      · have heq : (p, m1) = ((p, m2) : String × α) := by rw [hf1, ← hf2]
        exact (Prod.ext_iff.mp heq).2
      · exfalso
        apply h.1
        rw [← hf1]
        exact List.mem_map.mpr ⟨(p, m2), hr2, rfl⟩
    · rcases List.mem_cons.mp h2 with hf2 | hr2
      · exfalso
        apply h.1
        rw [← hf2]
        exact List.mem_map.mpr ⟨(p, m1), hr1, rfl⟩
      · exact ih h.2 hr1 hr2

theorem getLast?_eq_of_all_eq {α : Type} (l : List α) (a : α) (hne : l ≠ [])
    (hall : ∀ b ∈ l, b = a) : l.getLast? = some a := by
  cases hl : l.getLast? with
  | none => exact absurd (List.getLast?_eq_none_iff.mp hl) hne
  | some b => rw [hall b (mem_of_getLast?_eq_some hl)]

/-- Flattened description of a node write. -/
theorem writeShape_descr (p : String) (m : List Stmt) (x : String) (a : NodeAttr)
    (w : WriteShape p m x a) :
    (x = p ∧ a = attrFile) ∨
    (∃ name body, Stmt.functionDef name body ∈ walk m ∧
      x = p ++ "::" ++ name ∧ a = attrFunction) ∨
    (∃ name body, Stmt.classDef name body ∈ walk m ∧
      x = p ++ "::" ++ name ∧ a = attrClass) ∨
    (∃ cname cbody mname mbody, Stmt.classDef cname cbody ∈ walk m ∧
      Stmt.functionDef mname mbody ∈ cbody ∧
      x = p ++ "::" ++ cname ++ "::" ++ mname ∧ a = attrFunction) ∨
    (x ∈ importKeys m ∧ a = attrModule) := by
  cases w with
  | file => exact Or.inl ⟨rfl, rfl⟩
  | func name body h => exact Or.inr (Or.inl ⟨name, body, h, rfl, rfl⟩)
  | cls name body h => exact Or.inr (Or.inr (Or.inl ⟨name, body, h, rfl, rfl⟩))
  | method cname cbody mname mbody hc hm =>
    exact Or.inr (Or.inr (Or.inr (Or.inl ⟨cname, cbody, mname, mbody, hc, hm, rfl, rfl⟩)))
  | mod k h => exact Or.inr (Or.inr (Or.inr (Or.inr ⟨h, rfl⟩)))

theorem decl_node_ne_modkey (p n : String) (m : List Stmt) (hs : stmtsOK m = true)
    (hk : (p ++ "::" ++ n) ∈ importKeys m) : False :=
  (import_key_ok m hs _ hk).1 (colon_mem_sep p n)

theorem path_ne_modkey (p : String) (hp : pathOK p = true) (m : List Stmt)
    (hs : stmtsOK m = true) (hk : p ∈ importKeys m) : False :=
  (import_key_ok m hs p hk).2 (pathOK_slash_mem p hp)

theorem func_cls_clash (files : List (String × List Stmt)) (hwf : filesWF files)
    (p1 : String) (m1 : List Stmt) (p2 : String) (m2 : List Stmt)
    (h1 : (p1, m1) ∈ files) (h2 : (p2, m2) ∈ files)
    (n1 : String) (b1 : List Stmt) (n2 : String) (b2 : List Stmt)
    (hf : Stmt.functionDef n1 b1 ∈ walk m1) (hcl : Stmt.classDef n2 b2 ∈ walk m2)
    (heq : p1 ++ "::" ++ n1 = p2 ++ "::" ++ n2) : False := by
  have hc1 : ':' ∉ p1.data := pathOK_colonFree _ (hwf.2 _ h1).1
  have hc2 : ':' ∉ p2.data := pathOK_colonFree _ (hwf.2 _ h2).1
  rcases sep_inj p1 n1 p2 n2 hc1 hc2 heq with ⟨hp, hn⟩
  subst hp
  have hm : m1 = m2 := nodup_fst_eq files hwf.1 p1 m1 m2 h1 h2
  subst hm
  subst hn
  exact noClash_elim m1 (hwf.2 _ h1).2.2 n1 b1 b2 hf hcl

/-- Any two node writes to the same identity, performed anywhere in a
well-formed run, agree on the attribute written: shared identities are
only ever module nodes (always yellow), while file and declaration
identities have a single writing file. -/
theorem write_agree (files : List (String × List Stmt)) (hwf : filesWF files)
    (p1 : String) (m1 : List Stmt) (p2 : String) (m2 : List Stmt)
    (h1 : (p1, m1) ∈ files) (h2 : (p2, m2) ∈ files)
    (x : String) (a b : NodeAttr)
    (w1 : WriteShape p1 m1 x a) (w2 : WriteShape p2 m2 x b) : a = b := by
  have hp1 : pathOK p1 = true := (hwf.2 _ h1).1
  have hp2 : pathOK p2 = true := (hwf.2 _ h2).1
  have hs1 : stmtsOK m1 = true := (hwf.2 _ h1).2.1
  have hs2 : stmtsOK m2 = true := (hwf.2 _ h2).2.1
  have hc1 : ':' ∉ p1.data := pathOK_colonFree _ hp1
  have hc2 : ':' ∉ p2.data := pathOK_colonFree _ hp2
  rcases writeShape_descr _ _ _ _ w1 with ⟨hx1, rfl⟩ |
    ⟨n1, b1, hf1, hx1, rfl⟩ | ⟨n1, b1, hcl1, hx1, rfl⟩ |
    ⟨c1, cb1, mn1, mb1, hcl1, hm1, hx1, rfl⟩ | ⟨hk1, rfl⟩ <;>
  rcases writeShape_descr _ _ _ _ w2 with ⟨hx2, rfl⟩ |
    ⟨n2, b2, hf2, hx2, rfl⟩ | ⟨n2, b2, hcl2, hx2, rfl⟩ |
    ⟨c2, cb2, mn2, mb2, hcl2, hm2, hx2, rfl⟩ | ⟨hk2, rfl⟩
  · rfl
  · exact absurd (hx1 ▸ hx2) (colonFree_ne_sep p1 p2 n2 hc1)
  · exact absurd (hx1 ▸ hx2) (colonFree_ne_sep p1 p2 n2 hc1)
  · exact absurd (hx1 ▸ hx2) (colonFree_ne_sep p1 (p2 ++ "::" ++ c2) mn2 hc1)
  · exact absurd (path_ne_modkey p1 hp1 m2 hs2 (hx1 ▸ hk2)) id
  · exact absurd (hx2 ▸ hx1) (colonFree_ne_sep p2 p1 n1 hc2)
  · rfl
  · exact absurd (func_cls_clash files hwf p1 m1 p2 m2 h1 h2 n1 b1 n2 b2 hf1 hcl2
      (hx1 ▸ hx2)) id
  · rfl
  · exact absurd (decl_node_ne_modkey p1 n1 m2 hs2 (hx1 ▸ hk2)) id
  · exact absurd (hx2 ▸ hx1) (colonFree_ne_sep p2 p1 n1 hc2)
  · exact absurd (func_cls_clash files hwf p2 m2 p1 m1 h2 h1 n2 b2 n1 b1 hf2 hcl1
      (hx2 ▸ hx1)) id
  · rfl
  · have hn1 : ':' ∉ n1.data :=
      nameOK_colonFree n1 (walked_classDef_nameOK m1 n1 b1 hs1 hcl1)
    exact absurd (hx1 ▸ hx2) (decl_ne_method p1 n1 p2 c2 mn2 hc1 hc2 hn1)
  · exact absurd (decl_node_ne_modkey p1 n1 m2 hs2 (hx1 ▸ hk2)) id
  · exact absurd (hx2 ▸ hx1) (colonFree_ne_sep p2 (p1 ++ "::" ++ c1) mn1 hc2)
  · rfl
  · have hn2 : ':' ∉ n2.data :=
      nameOK_colonFree n2 (walked_classDef_nameOK m2 n2 b2 hs2 hcl2)
    exact absurd (hx2 ▸ hx1) (decl_ne_method p2 n2 p1 c1 mn1 hc2 hc1 hn2)
  · rfl
  · exact absurd (decl_node_ne_modkey (p1 ++ "::" ++ c1) mn1 m2 hs2 (hx1 ▸ hk2)) id
  · exact absurd (path_ne_modkey p2 hp2 m1 hs1 (hx2 ▸ hk1)) id
  · exact absurd (decl_node_ne_modkey p2 n2 m1 hs1 (hx2 ▸ hk1)) id
  · exact absurd (decl_node_ne_modkey p2 n2 m1 hs1 (hx2 ▸ hk1)) id
  · exact absurd (decl_node_ne_modkey (p2 ++ "::" ++ c2) mn2 m1 hs1 (hx2 ▸ hk1)) id
  · rfl

/-! ### Characterizing the built graph -/

theorem edgeShape_descr (p : String) (m : List Stmt) (u v : String)
    (e : EdgeShape p m u v) :
    (∃ name body, Stmt.functionDef name body ∈ walk m ∧
      u = p ∧ v = p ++ "::" ++ name) ∨
    (∃ name body, Stmt.classDef name body ∈ walk m ∧
      u = p ∧ v = p ++ "::" ++ name) ∨
    (∃ cname cbody mname mbody, Stmt.classDef cname cbody ∈ walk m ∧
      Stmt.functionDef mname mbody ∈ cbody ∧
      u = p ++ "::" ++ cname ∧ v = p ++ "::" ++ cname ++ "::" ++ mname) ∨
    (∃ k, k ∈ importKeys m ∧ u = p ∧ v = k) := by
  cases e with
  | func name body h => exact Or.inl ⟨name, body, h, rfl, rfl⟩
  | cls name body h => exact Or.inr (Or.inl ⟨name, body, h, rfl, rfl⟩)
  | method cname cbody mname mbody hc hm =>
    exact Or.inr (Or.inr (Or.inl ⟨cname, cbody, mname, mbody, hc, hm, rfl, rfl⟩))
  | ref k h => exact Or.inr (Or.inr (Or.inr ⟨_, h, rfl, rfl⟩))

theorem mem_node_buildOps_iff (files : List (String × List Stmt)) (x : String)
    (a : NodeAttr) :
    Op.node x a ∈ buildOps files ↔ ∃ f ∈ files, WriteShape f.1 f.2 x a := by
  unfold buildOps
  rw [List.mem_flatMap]
  constructor
  · rintro ⟨f, hf, ho⟩
    exact ⟨f, hf, (mem_node_fileOps_iff f.1 f.2 x a).mp ho⟩
  · rintro ⟨f, hf, hw⟩
    exact ⟨f, hf, (mem_node_fileOps_iff f.1 f.2 x a).mpr hw⟩

theorem mem_edge_buildOps_iff (files : List (String × List Stmt)) (u v : String) :
    Op.edge u v ∈ buildOps files ↔ ∃ f ∈ files, EdgeShape f.1 f.2 u v := by
  unfold buildOps
  rw [List.mem_flatMap]
  constructor
  · rintro ⟨f, hf, ho⟩
    exact ⟨f, hf, (mem_edge_fileOps_iff f.1 f.2 u v).mp ho⟩
  · rintro ⟨f, hf, hw⟩
    exact ⟨f, hf, (mem_edge_fileOps_iff f.1 f.2 u v).mpr hw⟩

/-- Every identity an operation of a file mentions also receives a node
write from that same file (in the source, `add_node` always precedes the
`add_edge` that uses the node). -/
theorem write_of_touch (p : String) (m : List Stmt) (o : Op) (x : String)
    (ho : o ∈ fileOps (p, m)) (ht : opTouches o x = true) :
    ∃ a, Op.node x a ∈ fileOps (p, m) := by
  cases o with
  | node n b =>
    have hn : n = x := by simpa [opTouches] using ht
    exact ⟨b, hn ▸ ho⟩
  | edge u v =>
    have huv : u = x ∨ v = x := by simpa [opTouches] using ht
    have hes := (mem_edge_fileOps_iff p m u v).mp ho
    rcases edgeShape_descr p m u v hes with
      ⟨name, body, hmem, rfl, rfl⟩ | ⟨name, body, hmem, rfl, rfl⟩ |
      ⟨c, cb, mn, mb, hc, hm, rfl, rfl⟩ | ⟨k, hk, rfl, rfl⟩
    · rcases huv with rfl | rfl
      · exact ⟨attrFile, (mem_node_fileOps_iff _ _ _ _).mpr WriteShape.file⟩
      · exact ⟨attrFunction, (mem_node_fileOps_iff _ _ _ _).mpr
          (WriteShape.func name body hmem)⟩
    · rcases huv with rfl | rfl
      · exact ⟨attrFile, (mem_node_fileOps_iff _ _ _ _).mpr WriteShape.file⟩
      · exact ⟨attrClass, (mem_node_fileOps_iff _ _ _ _).mpr
          (WriteShape.cls name body hmem)⟩
    · rcases huv with rfl | rfl
      · exact ⟨attrClass, (mem_node_fileOps_iff _ _ _ _).mpr
          (WriteShape.cls c cb hc)⟩
      · exact ⟨attrFunction, (mem_node_fileOps_iff _ _ _ _).mpr
          (WriteShape.method c cb mn mb hc hm)⟩
    · rcases huv with rfl | rfl
      · exact ⟨attrFile, (mem_node_fileOps_iff _ _ _ _).mpr WriteShape.file⟩
      · exact ⟨attrModule, (mem_node_fileOps_iff _ _ _ _).mpr
          (WriteShape.mod _ hk)⟩

theorem build_G_eq (files : List (String × List Stmt)) :
    (build_import_graph files).G = applyOps Graph.empty (buildOps files) := rfl

/-- In a well-formed run, an identity written anywhere ends up with
exactly that attribute. -/
theorem lookup_build_of_write (files : List (String × List Stmt)) (hwf : filesWF files)
    (p : String) (m : List Stmt) (h : (p, m) ∈ files) (x : String) (a : NodeAttr)
    (w : WriteShape p m x a) :
    lookupNode (build_import_graph files).G x = some a := by
  rw [build_G_eq]
  apply lookupNode_applyOps_lastWrite
  apply getLast?_eq_of_all_eq
  · have : a ∈ writesTo (buildOps files) x :=
      (mem_writesTo_iff _ _ _).mpr ((mem_node_buildOps_iff files x a).mpr ⟨(p, m), h, w⟩)
    exact List.ne_nil_of_mem this
  · intro b hb
    rcases (mem_node_buildOps_iff files x b).mp ((mem_writesTo_iff _ _ _).mp hb)
      with ⟨f, hf, wb⟩
    exact write_agree files hwf f.1 f.2 p m hf h x b a wb w

/-- Conversely, every present attribute stems from a node write of some
file of the run. -/
theorem lookup_build_inv (files : List (String × List Stmt)) (x : String) (a : NodeAttr)
    (h : lookupNode (build_import_graph files).G x = some a) :
    ∃ f ∈ files, WriteShape f.1 f.2 x a := by
  rw [build_G_eq] at h
  by_cases hw : writesTo (buildOps files) x = []
  · exfalso
    by_cases htouch : ∃ o ∈ buildOps files, opTouches o x = true
    · rcases htouch with ⟨o, ho, ht⟩
      rcases List.mem_flatMap.mp ho with ⟨f, hf, ho2⟩
      rcases write_of_touch f.1 f.2 o x ho2 ht with ⟨b, hb⟩
      have hmem : b ∈ writesTo (buildOps files) x :=
        (mem_writesTo_iff _ _ _).mpr (List.mem_flatMap.mpr ⟨f, hf, hb⟩)
      rw [hw] at hmem
      cases hmem
    · have hall : ∀ o ∈ buildOps files, opTouches o x = false := by
        intro o ho
        by_contra hc
        exact htouch ⟨o, ho, by revert hc; cases opTouches o x <;> simp⟩
      rw [lookupNode_applyOps_untouched _ _ _ hall] at h
      cases h
  · cases hlast : (writesTo (buildOps files) x).getLast? with
    | none => exact absurd (List.getLast?_eq_none_iff.mp hlast) hw
    | some b =>
      rw [lookupNode_applyOps_lastWrite _ _ _ _ hlast] at h
      cases h
      exact (mem_node_buildOps_iff files x _).mp
        ((mem_writesTo_iff _ _ _).mp (mem_of_getLast?_eq_some hlast))

/-- Edge membership in the built graph. -/
theorem mem_edges_build_iff (files : List (String × List Stmt)) (u v : String) :
    (u, v) ∈ (build_import_graph files).G.edges ↔
      ∃ f ∈ files, EdgeShape f.1 f.2 u v := by
  rw [build_G_eq, mem_edges_applyOps]
  show ((u, v) ∈ ([] : List (String × String)) ∨ _) ↔ _
  rw [← mem_edge_buildOps_iff]
  simp

/-! ### Claim C3: the Source Analyzer's flat import identifiers -/

/-- The flat identifiers one statement itself contributes (not
recursing): exactly the dict keys `parse_imports` writes for it. -/
def stmtTopIdents : Stmt → List String
  | .importS names => names
  | .importFrom module names => names.map (flatName module)
  | _ => []

mutual
/-- Spec-side definition, following §4.1 of the spec: the import
references of one statement, "each reduced to a single flat identifier
(for `from MODULE import NAME`, the identifier is `MODULE.NAME`; for
bare `import NAME`, the identifier is `NAME`)", collected from the whole
statement tree. -/
def stmtRefIdents : Stmt → List String
  | .importS names => names
  | .importFrom module names => names.map (flatName module)
  | .functionDef _ b => refIdents b
  | .classDef _ b => refIdents b
  | .other b => refIdents b

/-- Spec-side definition: all reference identifiers of a file. -/
def refIdents : List Stmt → List String
  | [] => []
  | s :: rest => stmtRefIdents s ++ refIdents rest
end

theorem stmtTopIdents_eq_writes (s : Stmt) (k : String) :
    k ∈ stmtTopIdents s ↔ ∃ kv ∈ stmtImportWrites s, kv.1 = k := by
  cases s with
  | importS ns =>
    simp only [stmtTopIdents, stmtImportWrites]
    constructor
    · intro h
      exact ⟨(k, k), List.mem_map.mpr ⟨k, h, rfl⟩, rfl⟩
    · rintro ⟨kv, hkv, rfl⟩
      rcases List.mem_map.mp hkv with ⟨n, hn, rfl⟩
      exact hn
  | importFrom mo ns =>
    simp only [stmtTopIdents, stmtImportWrites]
    constructor
    · intro h
      rcases List.mem_map.mp h with ⟨n, hn, rfl⟩
      exact ⟨(flatName mo n, n), List.mem_map.mpr ⟨n, hn, rfl⟩, rfl⟩
    · rintro ⟨kv, hkv, rfl⟩
      rcases List.mem_map.mp hkv with ⟨n, hn, rfl⟩
      exact List.mem_map.mpr ⟨n, hn, rfl⟩
  | functionDef n b => simp [stmtTopIdents, stmtImportWrites]
  | classDef n b => simp [stmtTopIdents, stmtImportWrites]
  | other b => simp [stmtTopIdents, stmtImportWrites]

theorem refIdents_eq_stmtsAll (q : List Stmt) (k : String) :
    k ∈ refIdents q ↔ ∃ s ∈ stmtsAll q, k ∈ stmtTopIdents s := by
  generalize hn : sizeList q = n
  induction n using Nat.strong_induction_on generalizing q with
  | _ n ih =>
  cases q with
  | nil =>
    simp [refIdents, stmtsAll]
  | cons s rest =>
    rw [refIdents, stmtsAll]
    have hrest : k ∈ refIdents rest ↔ ∃ t ∈ stmtsAll rest, k ∈ stmtTopIdents t := by
      refine ih (sizeList rest) ?_ rest rfl
      subst hn
      have := Stmt.size_pos s
      simp [sizeList]
      omega
    have hhead : k ∈ stmtRefIdents s ↔ ∃ t ∈ stmtAll s, k ∈ stmtTopIdents t := by
      rw [stmtAll_eq]
      have hchild : k ∈ refIdents s.children ↔
          ∃ t ∈ stmtsAll s.children, k ∈ stmtTopIdents t := by
        refine ih (sizeList s.children) ?_ s.children rfl
        subst hn
        have := Stmt.size_children s
        simp [sizeList]
        omega
      cases s with
      | importS ns =>
        simp only [stmtRefIdents, Stmt.children, stmtsAll, stmtTopIdents]
        constructor
        · intro h
          exact ⟨.importS ns, List.mem_cons_self _ _, h⟩
        · rintro ⟨t, ht, hk⟩
          rcases List.mem_cons.mp ht with rfl | ht
          · exact hk
          · cases ht
      | importFrom mo ns =>
        simp only [stmtRefIdents, Stmt.children, stmtsAll, stmtTopIdents]
        constructor
        · intro h
          exact ⟨.importFrom mo ns, List.mem_cons_self _ _, h⟩
        · rintro ⟨t, ht, hk⟩
          rcases List.mem_cons.mp ht with rfl | ht
          · exact hk
          · cases ht
      | functionDef nm b =>
        show k ∈ refIdents b ↔ _
        rw [show (Stmt.functionDef nm b).children = b from rfl] at hchild
        rw [hchild]
        constructor
        · rintro ⟨t, ht, hk⟩
          exact ⟨t, List.mem_cons_of_mem _ ht, hk⟩
        · rintro ⟨t, ht, hk⟩
          rcases List.mem_cons.mp ht with rfl | ht
          · cases hk
          · exact ⟨t, ht, hk⟩
      | classDef nm b =>
        show k ∈ refIdents b ↔ _
        rw [show (Stmt.classDef nm b).children = b from rfl] at hchild
        rw [hchild]
        constructor
        · rintro ⟨t, ht, hk⟩
          exact ⟨t, List.mem_cons_of_mem _ ht, hk⟩
        · rintro ⟨t, ht, hk⟩
          rcases List.mem_cons.mp ht with rfl | ht
          · cases hk
          · exact ⟨t, ht, hk⟩
      | other b =>
        show k ∈ refIdents b ↔ _
        rw [show (Stmt.other b).children = b from rfl] at hchild
        rw [hchild]
        constructor
        · rintro ⟨t, ht, hk⟩
          exact ⟨t, List.mem_cons_of_mem _ ht, hk⟩
        · rintro ⟨t, ht, hk⟩
          rcases List.mem_cons.mp ht with rfl | ht
          · cases hk
          · exact ⟨t, ht, hk⟩
    rw [List.mem_append]
    constructor
    · rintro (h | h)
      · rcases hhead.mp h with ⟨t, ht, hk⟩
        exact ⟨t, List.mem_append_left _ ht, hk⟩
      · rcases hrest.mp h with ⟨t, ht, hk⟩
        exact ⟨t, List.mem_append_right _ ht, hk⟩
    · rintro ⟨t, ht, hk⟩
      rcases List.mem_append.mp ht with ht | ht
      · exact Or.inl (hhead.mpr ⟨t, ht, hk⟩)
      · exact Or.inr (hrest.mpr ⟨t, ht, hk⟩)

/-- C3: for every parseable file, the Source Analyzer reduces each
statement importing names to a single flat identifier per name —
`from MODULE import NAME` yields `MODULE.NAME` (just `NAME` when the module part is empty,
as in a relative import) and bare `import NAME` yields `NAME` — and the
set of identifiers `parse_imports` reports for the file is exactly the
set described by that rule (`refIdents`, written from the spec's
words). -/
theorem c3_analyzer_flat_idents (m : List Stmt) (k : String) :
    k ∈ importKeys m ↔ k ∈ refIdents m := by
  rw [mem_importKeys_iff, refIdents_eq_stmtsAll]
  constructor
  · rintro ⟨s, hs, hkv⟩
    exact ⟨s, (mem_walk_iff m s).mp hs, (stmtTopIdents_eq_writes s k).mpr hkv⟩
  · rintro ⟨s, hs, hk⟩
    exact ⟨s, (mem_walk_iff m s).mpr hs, (stmtTopIdents_eq_writes s k).mp hk⟩

/-! ### Claim C9: idempotent node / edge insertion -/

theorem map_update_eq_self_of_not_mem {α : Type} (l : List (String × α)) (n : String)
    (a : α) (h : n ∉ l.map Prod.fst) :
    l.map (fun kv => if kv.1 = n then (n, a) else kv) = l := by
  induction l with
  | nil => rfl
  | cons kv rest ih =>
    rw [List.map_cons] at h ⊢
    have hne : kv.1 ≠ n := fun hc => h (hc ▸ List.mem_cons_self _ _)
    rw [if_neg hne, ih (fun hc => h (List.mem_cons_of_mem _ hc))]

theorem map_update_eq_self {α : Type} (l : List (String × α)) (n : String) (a : α)
    (hnodup : (l.map Prod.fst).Nodup)
    (hfind : (l.find? (fun kv => kv.1 = n)).map (fun kv => kv.2) = some a) :
    l.map (fun kv => if kv.1 = n then (n, a) else kv) = l := by
  induction l with
  | nil => cases hfind
  | cons kv rest ih =>
    rw [List.map_cons, List.nodup_cons] at hnodup
    by_cases h : kv.1 = n
    · rw [List.find?_cons_of_pos _ (by simpa using h)] at hfind
      have hval : kv.2 = a := Option.some.inj hfind
      rw [List.map_cons, if_pos h]
      have hkv : (n, a) = kv := by
        cases kv
        simp only [Prod.mk.injEq]
        exact ⟨h.symm, hval.symm⟩
      rw [map_update_eq_self_of_not_mem rest n a (h ▸ hnodup.1), hkv]
    · rw [List.find?_cons_of_neg _ (by simpa using h)] at hfind
      rw [List.map_cons, if_neg h, ih hnodup.2 hfind]

theorem add_node_eq_self (G : Graph) (n : String) (a : NodeAttr)
    (hnodup : (G.nodes.map Prod.fst).Nodup)
    (h : lookupNode G n = some a) : add_node G n a = G := by
  unfold add_node
  have hc : containsNode G n = true := by
    rw [containsNode_iff, h]
    rfl
  rw [if_pos hc]
  have := map_update_eq_self G.nodes n a hnodup h
  rw [this]

theorem ensureNode_eq_self (G : Graph) (n : String) (h : containsNode G n = true) :
    ensureNode G n = G := by
  unfold ensureNode
  rw [if_pos h]

theorem add_edge_eq_self (G : Graph) (u v : String)
    (hmem : (u, v) ∈ G.edges) (hu : containsNode G u = true)
    (hv : containsNode G v = true) : add_edge G u v = G := by
  unfold add_edge
  rw [ensureNode_eq_self G u hu, ensureNode_eq_self G v hv, if_pos hmem]

theorem edgesClosed_empty : edgesClosed Graph.empty := by
  intro e he
  cases he

theorem build_closed (files : List (String × List Stmt)) :
    edgesClosed (build_import_graph files).G := by
  rw [build_G_eq]
  exact edgesClosed_applyOps _ _ edgesClosed_empty

theorem build_nodes_nodup (files : List (String × List Stmt)) :
    ((build_import_graph files).G.nodes.map Prod.fst).Nodup := by
  rw [build_G_eq]
  exact nodes_keys_applyOps _ _ List.nodup_nil

theorem build_edges_nodup (files : List (String × List Stmt)) :
    (build_import_graph files).G.edges.Nodup := by
  rw [build_G_eq]
  exact edges_nodup_applyOps _ _ List.nodup_nil

/-- C9: node creation and reference-edge insertion are idempotent.  In
any graph the builder produces, every identity holds exactly one node
(the node-key list has no duplicates) and every edge appears exactly
once, however many times the same file or several files inserted them;
and re-running `add_node` with the node's current attributes or
`add_edge` with an existing edge leaves the graph unchanged. -/
theorem c9_idempotent_inserts (files : List (String × List Stmt)) (n u v : String)
    (a : NodeAttr) (hn : lookupNode (build_import_graph files).G n = some a)
    (he : (u, v) ∈ (build_import_graph files).G.edges) :
    (((build_import_graph files).G.nodes.map Prod.fst).Nodup ∧
      (build_import_graph files).G.edges.Nodup) ∧
    add_node (build_import_graph files).G n a = (build_import_graph files).G ∧
    add_edge (build_import_graph files).G u v = (build_import_graph files).G := by
  refine ⟨⟨build_nodes_nodup files, build_edges_nodup files⟩, ?_, ?_⟩
  · exact add_node_eq_self _ n a (build_nodes_nodup files) hn
  · have hclosed := build_closed files (u, v) he
    exact add_edge_eq_self _ u v he hclosed.1 hclosed.2

/-- A two-file example: `d/a.py` declares class `C` with method `m`
and imports `os`; `d/b.py` imports `os` and `a.foo`. -/
def exampleFiles : List (String × List Stmt) :=
  [("d/a.py", [Stmt.classDef "C" [Stmt.functionDef "m" []], Stmt.importS ["os"]]),
   ("d/b.py", [Stmt.importS ["os"], Stmt.importFrom (some "a") ["foo"]])]

/-- C9 witness: the re-insertion no-ops on a concrete build. -/
theorem c9_idempotent_inserts_witness :
    (((build_import_graph exampleFiles).G.nodes.map Prod.fst).Nodup ∧
      (build_import_graph exampleFiles).G.edges.Nodup) ∧
    add_node (build_import_graph exampleFiles).G "os" attrModule =
      (build_import_graph exampleFiles).G ∧
    add_edge (build_import_graph exampleFiles).G "d/a.py" "os" =
      (build_import_graph exampleFiles).G :=
  c9_idempotent_inserts exampleFiles "os" "d/a.py" "os" attrModule
    (by decide) (by decide)

/-! ### Claim C4: module nodes are shared, never duplicated -/

/-- C4: if two distinct files both import the flat identifier `X`, the
final graph holds exactly one Module node keyed `X` (node keys are
duplicate-free and `X` carries the module color/type), with an incoming
Reference edge from each of the two File nodes. -/
theorem c4_shared_module_node (files : List (String × List Stmt)) (hwf : filesWF files)
    (pA : String) (mA : List Stmt) (pB : String) (mB : List Stmt) (X : String)
    (hA : (pA, mA) ∈ files) (hB : (pB, mB) ∈ files) (_hAB : pA ≠ pB)
    (hXA : X ∈ importKeys mA) (hXB : X ∈ importKeys mB) :
    lookupNode (build_import_graph files).G X = some attrModule ∧
    ((build_import_graph files).G.nodes.map Prod.fst).Nodup ∧
    (pA, X) ∈ (build_import_graph files).G.edges ∧
    (pB, X) ∈ (build_import_graph files).G.edges := by
  refine ⟨?_, build_nodes_nodup files, ?_, ?_⟩
  · exact lookup_build_of_write files hwf pA mA hA X attrModule (WriteShape.mod X hXA)
  · exact (mem_edges_build_iff files pA X).mpr ⟨(pA, mA), hA, EdgeShape.ref X hXA⟩
  · exact (mem_edges_build_iff files pB X).mpr ⟨(pB, mB), hB, EdgeShape.ref X hXB⟩

/-- C4 witness: both example files import `os`; the graph holds one
`os` node with a Reference edge from each file node. -/
theorem c4_shared_module_node_witness :
    lookupNode (build_import_graph exampleFiles).G "os" = some attrModule ∧
    ((build_import_graph exampleFiles).G.nodes.map Prod.fst).Nodup ∧
    ("d/a.py", "os") ∈ (build_import_graph exampleFiles).G.edges ∧
    ("d/b.py", "os") ∈ (build_import_graph exampleFiles).G.edges :=
  c4_shared_module_node exampleFiles (by decide) "d/a.py"
    [Stmt.classDef "C" [Stmt.functionDef "m" []], Stmt.importS ["os"]]
    "d/b.py" [Stmt.importS ["os"], Stmt.importFrom (some "a") ["foo"]] "os"
    (List.mem_cons_self _ _) (List.mem_cons_of_mem _ (List.mem_cons_self _ _))
    (by decide) (by decide) (by decide)

/-! ### Claim C6: the Preview Resolver is total -/

theorem dictLookup_mem (d : List (String × String)) (k v : String)
    (h : dictLookup d k = some v) : (k, v) ∈ d := by
  unfold dictLookup at h
  cases hfind : d.find? (fun kv => kv.1 = k) with
  | none => rw [hfind] at h; cases h
  | some kv =>
    rw [hfind] at h
    have hmem := List.mem_of_find?_eq_some hfind
    have hp := List.find?_some hfind
    have hk : kv.1 = k := by simpa using hp
    have hv : kv.2 = v := Option.some.inj h
    have heq : kv = (k, v) := by
      cases kv
      simp only [Prod.mk.injEq]
      exact ⟨hk, hv⟩
    exact heq ▸ hmem

theorem append_ne_empty_left (s t : String) (hs : s ≠ "") : s ++ t ≠ "" := by
  intro hc
  apply hs
  have hdata : (s ++ t).data = [] := by rw [hc]
  rw [String.data_append] at hdata
  rcases List.append_eq_nil.mp hdata with ⟨h1, _⟩
  apply String.ext_iff.mpr
  rw [h1]

theorem unparse_functionDef_ne_empty (n : String) (b : List Stmt) :
    unparse (Stmt.functionDef n b) ≠ "" := by
  show "def " ++ n ++ "(): <" ++ Nat.repr (sizeList b) ++ " stmts>" ≠ ""
  exact append_ne_empty_left _ _ (append_ne_empty_left _ _
    (append_ne_empty_left _ _ (append_ne_empty_left _ _ (by decide))))

theorem unparse_classDef_ne_empty (n : String) (b : List Stmt) :
    unparse (Stmt.classDef n b) ≠ "" := by
  show "class " ++ n ++ ": <" ++ Nat.repr (sizeList b) ++ " stmts>" ≠ ""
  exact append_ne_empty_left _ _ (append_ne_empty_left _ _
    (append_ne_empty_left _ _ (append_ne_empty_left _ _ (by decide))))

theorem funWrites_vals_ne_empty (files : List (String × List Stmt)) :
    ∀ kv ∈ files.flatMap (fun f => (walk f.2).flatMap (stmtFunWrites f.1)),
      kv.2 ≠ "" := by
  intro kv hkv
  rcases List.mem_flatMap.mp hkv with ⟨f, _, hkv2⟩
  rcases List.mem_flatMap.mp hkv2 with ⟨s, _, hkv3⟩
  cases s with
  | functionDef name body =>
    rcases List.mem_singleton.mp hkv3 with rfl
    exact unparse_functionDef_ne_empty name body
  | classDef name body =>
    rcases List.mem_filterMap.mp hkv3 with ⟨item, _, hsome⟩
    cases item with
    | functionDef mname mbody =>
      cases Option.some.inj hsome
      exact unparse_functionDef_ne_empty mname mbody
    | importS ns => cases hsome
    | importFrom mo ns => cases hsome
    | classDef n2 b2 => cases hsome
    | other b2 => cases hsome
  | importS ns => cases hkv3
  | importFrom mo ns => cases hkv3
  | other b => cases hkv3

theorem clsWrites_vals_ne_empty (files : List (String × List Stmt)) :
    ∀ kv ∈ files.flatMap (fun f => (walk f.2).flatMap (stmtClassWrites f.1)),
      kv.2 ≠ "" := by
  intro kv hkv
  rcases List.mem_flatMap.mp hkv with ⟨f, _, hkv2⟩
  rcases List.mem_flatMap.mp hkv2 with ⟨s, _, hkv3⟩
  cases s with
  | classDef name body =>
    rcases List.mem_singleton.mp hkv3 with rfl
    exact unparse_classDef_ne_empty name body
  | functionDef name body => cases hkv3
  | importS ns => cases hkv3
  | importFrom mo ns => cases hkv3
  | other b => cases hkv3

/-- Every snippet the builder stores is nonempty text. -/
theorem codes_vals_ne_empty (files : List (String × List Stmt)) :
    ∀ kv ∈ (build_import_graph files).codes, kv.2 ≠ "" := by
  show ∀ kv ∈ dictMerge (function_codesOf files) (class_codesOf files), kv.2 ≠ ""
  unfold dictMerge
  apply foldl_insert_forall
  · show ∀ kv ∈ function_codesOf files, kv.2 ≠ ""
    unfold function_codesOf dictOfWrites
    apply foldl_insert_forall
    · intro kv hkv; cases hkv
    · exact funWrites_vals_ne_empty files
  · show ∀ kv ∈ class_codesOf files, kv.2 ≠ ""
    unfold class_codesOf dictOfWrites
    apply foldl_insert_forall
    · intro kv hkv; cases hkv
    · exact clsWrites_vals_ne_empty files

/-- C6: for every Function or Class node present in a built graph,
resolving a preview for its identity returns the snippet stored under
it in the snippet map when one is present and the "Code not available"
sentinel when none is — never an unhandled failure (the resolver is a
total function) — and for a Module node the resolver always returns the
"no preview available" sentinel. -/
theorem c6_resolver_total (files : List (String × List Stmt)) (fetch : String → String)
    (x ty : String) (a : NodeAttr)
    (_hx : lookupNode (build_import_graph files).G x = some a)
    (_hty : a.type = some ty) (hfc : ty = "function" ∨ ty = "class") :
    (resolve (build_import_graph files).codes fetch x ty =
      match dictLookup (build_import_graph files).codes x with
      | some c => c
      | none => "Code not available") ∧
    (∀ y : String, resolve (build_import_graph files).codes fetch y "module" =
      "No preview available for module: " ++ y) := by
  constructor
  · unfold resolve
    rw [if_pos hfc]
    cases hlook : dictLookup (build_import_graph files).codes x with
    | none => rfl
    | some c =>
      have hne : c ≠ "" :=
        codes_vals_ne_empty files (x, c) (dictLookup_mem _ x c hlook)
      show (if c = "" then "Code not available" else c) = c
      rw [if_neg hne]
  · intro y
    unfold resolve
    rw [if_neg (by decide : ¬("module" = "function" ∨ "module" = "class"))]
    rw [if_neg (by decide : ¬("module" = "file"))]
    rfl

/-- C6 witness: resolving the stored method snippet and a missing
identity on the concrete example build, plus the module sentinel. -/
theorem c6_resolver_total_witness :
    (resolve (build_import_graph exampleFiles).codes (fun _ => "") "d/a.py::m"
        "function" =
      match dictLookup (build_import_graph exampleFiles).codes "d/a.py::m" with
      | some c => c
      | none => "Code not available") ∧
    (∀ y : String, resolve (build_import_graph exampleFiles).codes (fun _ => "") y
        "module" = "No preview available for module: " ++ y) :=
  c6_resolver_total exampleFiles (fun _ => "") "d/a.py::m" "function" attrFunction
    (by decide) (by decide) (Or.inl rfl)

/-! ### Claim C7: the Graph Builder is deterministic -/

theorem filesWF_perm (files files' : List (String × List Stmt))
    (hperm : List.Perm files files') (hwf : filesWF files) : filesWF files' := by
  constructor
  · exact ((hperm.map Prod.fst).nodup_iff).mp hwf.1
  · intro f hf
    exact hwf.2 f (hperm.mem_iff.mpr hf)

/-- C7: the Graph Builder is deterministic.  Because it is a pure
function, equal inputs give equal graphs; moreover the graph structure
does not depend on the order in which the discovered files are folded
in: for any permutation of a well-formed file list, the two runs agree
on every node (identity, color and type) and on every edge — the
graphs are isomorphic, differing at most in insertion order. -/
theorem c7_builder_deterministic (files files' : List (String × List Stmt))
    (hwf : filesWF files) (hperm : List.Perm files files') :
    (∀ x : String, lookupNode (build_import_graph files').G x =
      lookupNode (build_import_graph files).G x) ∧
    (∀ u v : String, ((u, v) ∈ (build_import_graph files').G.edges ↔
      (u, v) ∈ (build_import_graph files).G.edges)) := by
  have hwf' := filesWF_perm files files' hperm hwf
  constructor
  · intro x
    cases hx : lookupNode (build_import_graph files).G x with
    | some a =>
      rcases lookup_build_inv files x a hx with ⟨f, hf, w⟩
      exact lookup_build_of_write files' hwf' f.1 f.2 (hperm.mem_iff.mp hf) x a w
    | none =>
      cases hx2 : lookupNode (build_import_graph files').G x with
      | none => rfl
      | some a =>
        exfalso
        rcases lookup_build_inv files' x a hx2 with ⟨f, hf, w⟩
        have hcontra := lookup_build_of_write files hwf f.1 f.2
          (hperm.mem_iff.mpr hf) x a w
        rw [hx] at hcontra
        cases hcontra
  · intro u v
    rw [mem_edges_build_iff, mem_edges_build_iff]
    constructor
    · rintro ⟨f, hf, e⟩
      exact ⟨f, hperm.mem_iff.mpr hf, e⟩
    · rintro ⟨f, hf, e⟩
      exact ⟨f, hperm.mem_iff.mp hf, e⟩

/-- The example file list in the opposite discovery order. -/
def exampleFilesRev : List (String × List Stmt) :=
  [("d/b.py", [Stmt.importS ["os"], Stmt.importFrom (some "a") ["foo"]]),
   ("d/a.py", [Stmt.classDef "C" [Stmt.functionDef "m" []], Stmt.importS ["os"]])]

/-- C7 witness: folding the two example files in either order yields the
same nodes and edges. -/
theorem c7_builder_deterministic_witness :
    (∀ x : String, lookupNode (build_import_graph exampleFilesRev).G x =
      lookupNode (build_import_graph exampleFiles).G x) ∧
    (∀ u v : String, ((u, v) ∈ (build_import_graph exampleFilesRev).G.edges ↔
      (u, v) ∈ (build_import_graph exampleFiles).G.edges)) :=
  c7_builder_deterministic exampleFiles exampleFilesRev (by decide)
    (List.Perm.swap _ _ _)

/-! ### Claim C5: the Dead-Reference Marker -/

theorem setColor_edges (G : Graph) (n c : String) : (setColor G n c).edges = G.edges := rfl

theorem mark_dead_code_cons (G : Graph) (kv : String × String)
    (rest : List (String × String)) :
    mark_dead_code G (kv :: rest) =
      mark_dead_code (if out_degree G kv.2 = 0 then setColor G kv.2 "red" else G)
        rest := rfl

theorem mark_dead_code_edges (fns : List (String × String)) (G : Graph) :
    (mark_dead_code G fns).edges = G.edges := by
  induction fns generalizing G with
  | nil => rfl
  | cons kv rest ih =>
    rw [mark_dead_code_cons, ih]
    by_cases h : out_degree G kv.2 = 0
    · rw [if_pos h, setColor_edges]
    · rw [if_neg h]

theorem out_degree_eq_of_edges (G G2 : Graph) (x : String)
    (h : G2.edges = G.edges) : out_degree G2 x = out_degree G x := by
  unfold out_degree
  rw [h]

theorem find?_key_map_modify_self (l : List (String × NodeAttr)) (n c : String) :
    (l.map (fun kv => if kv.1 = n then (kv.1, NodeAttr.mk (some c) kv.2.type) else kv)).find?
        (fun kv => kv.1 = n) =
      (l.find? (fun kv => kv.1 = n)).map
        (fun kv => (kv.1, NodeAttr.mk (some c) kv.2.type)) := by
  induction l with
  | nil => rfl
  | cons kv rest ih =>
    by_cases h : kv.1 = n
    · simp only [List.map_cons, if_pos h]
      rw [List.find?_cons_of_pos _ (by simpa using h),
        List.find?_cons_of_pos _ (by simpa using h)]
      rfl
    · simp only [List.map_cons, if_neg h]
      rw [List.find?_cons_of_neg _ (by simpa using h),
        List.find?_cons_of_neg _ (by simpa using h)]
      exact ih

theorem find?_key_map_modify_other (l : List (String × NodeAttr)) (n k c : String)
    (hk : k ≠ n) :
    (l.map (fun kv => if kv.1 = n then (kv.1, NodeAttr.mk (some c) kv.2.type) else kv)).find?
        (fun kv => kv.1 = k) =
      l.find? (fun kv => kv.1 = k) := by
  induction l with
  | nil => rfl
  | cons kv rest ih =>
    by_cases h : kv.1 = n
    · simp only [List.map_cons, if_pos h]
      rw [List.find?_cons_of_neg _ (by simp; rw [h]; exact Ne.symm hk),
        List.find?_cons_of_neg _ (by simp; rw [h]; exact Ne.symm hk)]
      exact ih
    · simp only [List.map_cons, if_neg h]
      by_cases h2 : kv.1 = k
      · rw [List.find?_cons_of_pos _ (by simpa using h2),
          List.find?_cons_of_pos _ (by simpa using h2)]
      · rw [List.find?_cons_of_neg _ (by simpa using h2),
          List.find?_cons_of_neg _ (by simpa using h2)]
        exact ih

theorem lookupNode_setColor_other (G : Graph) (n c x : String) (hx : x ≠ n) :
    lookupNode (setColor G n c) x = lookupNode G x := by
  unfold setColor lookupNode
  show ((G.nodes.map _).find? _).map _ = _
  rw [find?_key_map_modify_other _ _ _ _ hx]
theorem lookupNode_setColor_self (G : Graph) (n c : String) (a : NodeAttr)
    (h : lookupNode G n = some a) :
    lookupNode (setColor G n c) n = some (NodeAttr.mk (some c) a.type) := by
  unfold setColor lookupNode
  show ((G.nodes.map _).find? _).map _ = _
  rw [find?_key_map_modify_self]
  unfold lookupNode at h
  cases hfind : G.nodes.find? (fun kv => kv.1 = n) with
  | none => rw [hfind] at h; cases h
  | some kv =>
    rw [hfind] at h
    have : kv.2 = a := Option.some.inj h
    rw [← this]
    rfl

theorem mark_dead_untouched (fns : List (String × String)) (G : Graph) (p : String)
    (h : ∀ kv ∈ fns, kv.2 ≠ p) :
    lookupNode (mark_dead_code G fns) p = lookupNode G p := by
  induction fns generalizing G with
  | nil => rfl
  | cons kv rest ih =>
    rw [mark_dead_code_cons, ih _ (fun kv2 h2 => h kv2 (List.mem_cons_of_mem _ h2))]
    by_cases hd : out_degree G kv.2 = 0
    · rw [if_pos hd]
      exact lookupNode_setColor_other G kv.2 "red" p
        (fun hc => h kv (List.mem_cons_self _ _) hc.symm)
    · rw [if_neg hd]

theorem mark_dead_lookup (fns : List (String × String)) (G : Graph) (p : String)
    (hnodup : (fns.map Prod.fst).Nodup)
    (hvals : ∀ kv ∈ fns, kv.2 = kv.1)
    (hmem : (p, p) ∈ fns) (a : NodeAttr) (ha : lookupNode G p = some a) :
    lookupNode (mark_dead_code G fns) p =
      some (if out_degree G p = 0 then NodeAttr.mk (some "red") a.type else a) := by
  induction fns generalizing G with
  | nil => cases hmem
  | cons kv rest ih =>
    rw [List.map_cons, List.nodup_cons] at hnodup
    rw [mark_dead_code_cons]
    rcases List.mem_cons.mp hmem with heq | hmem2
    · have hkv2 : kv.2 = p := by rw [← heq]
      have hrest : ∀ kv2 ∈ rest, kv2.2 ≠ p := by
        intro kv2 h2 hc
        apply hnodup.1
        have hk1 : kv2.1 = p := by
          rw [← hvals kv2 (List.mem_cons_of_mem _ h2), hc]
        rw [← heq]
        show p ∈ rest.map Prod.fst
        exact List.mem_map.mpr ⟨kv2, h2, hk1⟩
      rw [mark_dead_untouched rest _ p hrest, hkv2]
      by_cases hd : out_degree G p = 0
      · rw [if_pos hd, if_pos hd]
        exact lookupNode_setColor_self G p "red" a ha
      · rw [if_neg hd, if_neg hd]
        exact ha
    · have hkv1 : kv.1 ≠ p := by
        intro hc
        apply hnodup.1
        rw [hc]
        exact List.mem_map.mpr ⟨(p, p), hmem2, rfl⟩
      have hkv2 : kv.2 ≠ p := by
        rw [hvals kv (List.mem_cons_self _ _)]
        exact hkv1
      by_cases hd : out_degree G kv.2 = 0
      · rw [if_pos hd]
        have hlook2 : lookupNode (setColor G kv.2 "red") p = some a := by
          rw [lookupNode_setColor_other G kv.2 "red" p (fun hc => hkv2 hc.symm)]
          exact ha
        have hih := ih (setColor G kv.2 "red") hnodup.2
          (fun kv2 h2 => hvals kv2 (List.mem_cons_of_mem _ h2)) hmem2 hlook2
        rw [hih,
          out_degree_eq_of_edges G (setColor G kv.2 "red") p (setColor_edges G kv.2 "red")]
      · rw [if_neg hd]
        exact ih G hnodup.2
          (fun kv2 h2 => hvals kv2 (List.mem_cons_of_mem _ h2)) hmem2 ha

theorem dictInsert_keys_nodup (d : List (String × String)) (k v : String)
    (h : (d.map Prod.fst).Nodup) : ((dictInsert d k v).map Prod.fst).Nodup := by
  unfold dictInsert
  by_cases hc : (d.find? (fun kv => kv.1 = k)).isSome
  · rw [if_pos hc]
    show ((d.map _).map Prod.fst).Nodup
    rw [keys_map_update]
    exact h
  · rw [if_neg hc]
    show ((d ++ [(k, v)]).map Prod.fst).Nodup
    rw [List.map_append, List.nodup_append]
    refine ⟨h, List.nodup_singleton _, ?_⟩
    intro k2 hk2 hk3
    simp only [List.map_cons, List.map_nil, List.mem_singleton] at hk3
    subst hk3
    rcases List.mem_map.mp hk2 with ⟨kv, hkv, hfst⟩
    exact hc (List.find?_isSome.mpr ⟨kv, hkv, by simpa using hfst⟩)

theorem dictOfWrites_keys_nodup (ws : List (String × String)) :
    ((dictOfWrites ws).map Prod.fst).Nodup := by
  unfold dictOfWrites
  suffices h : ∀ d : List (String × String), (d.map Prod.fst).Nodup →
      ((ws.foldl (fun d kv => dictInsert d kv.1 kv.2) d).map Prod.fst).Nodup by
    exact h [] List.nodup_nil
  induction ws with
  | nil => exact fun d hd => hd
  | cons kv rest ih =>
    intro d hd
    exact ih _ (dictInsert_keys_nodup d kv.1 kv.2 hd)

theorem file_nodes_entry (files : List (String × List Stmt)) (p : String)
    (m : List Stmt) (h : (p, m) ∈ files) :
    (p, p) ∈ (build_import_graph files).file_nodes := by
  apply dictLookup_mem
  show dictLookup (dictOfWrites (files.map (fun f => (f.1, f.1)))) p = some p
  unfold dictOfWrites
  rw [dictLookup_foldl_insert]
  have hlast : ((files.map (fun f => (f.1, f.1))).filter
      (fun kv => kv.1 = p)).getLast? = some (p, p) := by
    apply getLast?_eq_of_all_eq
    · apply List.ne_nil_of_mem
      apply List.mem_filter.mpr
      exact ⟨List.mem_map.mpr ⟨(p, m), h, rfl⟩, by simp⟩
    · intro kv hkv
      rcases List.mem_filter.mp hkv with ⟨hmem, hkey⟩
      rcases List.mem_map.mp hmem with ⟨f, _, rfl⟩
      have : f.1 = p := by simpa using hkey
      rw [this]
  rw [hlast]

theorem file_nodes_vals (files : List (String × List Stmt)) :
    ∀ kv ∈ (build_import_graph files).file_nodes, kv.2 = kv.1 := by
  show ∀ kv ∈ dictOfWrites (files.map (fun f => (f.1, f.1))), kv.2 = kv.1
  unfold dictOfWrites
  apply foldl_insert_forall
  · intro kv hkv; cases hkv
  · intro kv hkv
    rcases List.mem_map.mp hkv with ⟨f, _, rfl⟩
    rfl

theorem file_nodes_keys (files : List (String × List Stmt)) (p : String)
    (hp : p ∈ (build_import_graph files).file_nodes.map Prod.fst) :
    ∃ m, (p, m) ∈ files := by
  have h2 : p ∈ (files.map (fun f => (f.1, f.1))).map Prod.fst ∨
      p ∈ ([] : List (String × String)).map Prod.fst := by
    exact (mem_keys_foldl_insert _ [] p).mp hp
  rcases h2 with h2 | h2
  · rcases List.mem_map.mp h2 with ⟨kv, hkv, rfl⟩
    rcases List.mem_map.mp hkv with ⟨f, hf, rfl⟩
    exact ⟨f.2, hf⟩
  · cases h2

theorem file_nodes_keys_nodup (files : List (String × List Stmt)) :
    ((build_import_graph files).file_nodes.map Prod.fst).Nodup :=
  dictOfWrites_keys_nodup _

/-- C5: after the Dead-Reference Marker runs on a completed graph, a
File node carries the "unreferenced" mark (its color has been set to
red) exactly when it has zero outgoing edges of any kind; a File node
with at least one outgoing Containment or Reference edge keeps its blue
file coloring. -/
theorem c5_dead_marking (files : List (String × List Stmt)) (hwf : filesWF files)
    (p : String)
    (hp : p ∈ (build_import_graph files).file_nodes.map Prod.fst) :
    (lookupNode (mark_dead_code (build_import_graph files).G
        (build_import_graph files).file_nodes) p =
      some (if out_degree (build_import_graph files).G p = 0
            then NodeAttr.mk (some "red") (some "file")
            else attrFile)) ∧
    ((Option.bind (lookupNode (mark_dead_code (build_import_graph files).G
        (build_import_graph files).file_nodes) p) NodeAttr.color = some "red") ↔
      out_degree (build_import_graph files).G p = 0) := by
  rcases file_nodes_keys files p hp with ⟨m, hm⟩
  have hfile : lookupNode (build_import_graph files).G p = some attrFile :=
    lookup_build_of_write files hwf p m hm p attrFile WriteShape.file
  have hmain := mark_dead_lookup (build_import_graph files).file_nodes
    (build_import_graph files).G p (file_nodes_keys_nodup files)
    (file_nodes_vals files) (file_nodes_entry files p m hm) attrFile hfile
  constructor
  · exact hmain
  · rw [hmain]
    by_cases hd : out_degree (build_import_graph files).G p = 0
    · rw [if_pos hd]
      constructor
      · intro _
        exact hd
      · intro _
        rfl
    · rw [if_neg hd]
      constructor
      · intro hc
        exfalso
        have hcol : some "blue" = some "red" := hc
        exact absurd (Option.some.inj hcol) (by decide)
      · intro hc
        exact absurd hc hd

/-- The example plus one empty file (no declarations, no imports). -/
def exampleFilesE : List (String × List Stmt) :=
  exampleFiles ++ [("d/empty.py", [])]

/-- C5 witness: in the concrete build, `d/empty.py` (no outgoing edges)
is marked red, while `d/a.py` (which has outgoing edges) stays blue. -/
theorem c5_dead_marking_witness :
    (lookupNode (mark_dead_code (build_import_graph exampleFilesE).G
        (build_import_graph exampleFilesE).file_nodes) "d/empty.py" =
      some (if out_degree (build_import_graph exampleFilesE).G "d/empty.py" = 0
            then NodeAttr.mk (some "red") (some "file")
            else attrFile)) ∧
    ((Option.bind (lookupNode (mark_dead_code (build_import_graph exampleFilesE).G
        (build_import_graph exampleFilesE).file_nodes) "d/empty.py")
        NodeAttr.color = some "red") ↔
      out_degree (build_import_graph exampleFilesE).G "d/empty.py" = 0) :=
  c5_dead_marking exampleFilesE (by decide) "d/empty.py" (by decide)

/-! ### Claim C2: the containment forest -/

/-- C2 counterexample: in the build of `exampleFiles`, the method `m` of
class `C` in `d/a.py` yields a second Function node whose identity is
`d/a.py::m` — the file path joined to just the method's own name, not
to its full enclosing-scope chain `C::m` — and the single Containment
edge of that node comes from the File node, not from the enclosing
Class node, contradicting the claim that every Function node's identity
carries its full scope chain and that a method's containment edge comes
from its class. -/
theorem c2_containment_counterexample :
    lookupNode (build_import_graph exampleFiles).G "d/a.py::m" = some attrFunction ∧
    ("d/a.py", "d/a.py::m") ∈ (build_import_graph exampleFiles).G.edges ∧
    ("d/a.py::C", "d/a.py::m") ∉ (build_import_graph exampleFiles).G.edges ∧
    "d/a.py::m" ≠ "d/a.py::C::m" := by decide

/-- C2 (amended): in every graph the builder produces from a
well-formed file list, the Containment edges into declaration nodes
form a forest rooted at File nodes: every Function or Class node has
exactly one incoming edge, and it comes either from the File node of
the file that declared it — this covers every function or class found
anywhere in the walk, whose identity is the file path joined to just
its own name, the enclosing scope chain being dropped — or, for the
additional `file::Class::method` node created for a direct method, from
the enclosing Class node. -/
theorem c2_amended_containment (files : List (String × List Stmt)) (hwf : filesWF files)
    (x : String) (a : NodeAttr)
    (hx : lookupNode (build_import_graph files).G x = some a)
    (hty : a.type = some "function" ∨ a.type = some "class") :
    ∃ u, (u, x) ∈ (build_import_graph files).G.edges ∧
      (∀ w2, (w2, x) ∈ (build_import_graph files).G.edges → w2 = u) ∧
      ∃ p m, (p, m) ∈ files ∧
        ((∃ name, x = p ++ "::" ++ name ∧ u = p) ∨
         (∃ cname mname, x = p ++ "::" ++ cname ++ "::" ++ mname ∧
           u = p ++ "::" ++ cname ∧
           lookupNode (build_import_graph files).G u = some attrClass)) := by
  rcases lookup_build_inv files x a hx with ⟨f, hf, w⟩
  obtain ⟨p, m⟩ := f
  have hpOK : pathOK p = true := (hwf.2 _ hf).1
  have hsOK : stmtsOK m = true := (hwf.2 _ hf).2.1
  have hpc : ':' ∉ p.data := pathOK_colonFree _ hpOK
  rcases writeShape_descr _ _ _ _ w with ⟨rfl, rfl⟩ |
    ⟨n1, b1, hf1, rfl, rfl⟩ | ⟨n1, b1, hc1, rfl, rfl⟩ |
    ⟨c1, cb1, mn1, mb1, hc1, hm1, rfl, rfl⟩ | ⟨hk1, rfl⟩
  · exfalso
    rcases hty with h | h
    · exact absurd (Option.some.inj h) (by decide)
    · exact absurd (Option.some.inj h) (by decide)
  · -- a walk-level function node
    have hn1c : ':' ∉ n1.data :=
      nameOK_colonFree n1 (walked_functionDef_nameOK m n1 b1 hsOK hf1)
    refine ⟨p, (mem_edges_build_iff _ _ _).mpr ⟨(p, m), hf,
      EdgeShape.func n1 b1 hf1⟩, ?_, p, m, hf, Or.inl ⟨n1, rfl, rfl⟩⟩
    intro w2 hw2
    rcases (mem_edges_build_iff _ _ _).mp hw2 with ⟨g, hg, es⟩
    obtain ⟨q, mg⟩ := g
    have hqc : ':' ∉ q.data := pathOK_colonFree _ (hwf.2 _ hg).1
    have hgs : stmtsOK mg = true := (hwf.2 _ hg).2.1
    rcases edgeShape_descr _ _ _ _ es with
      ⟨n2, b2, _, rfl, heqv⟩ | ⟨n2, b2, _, rfl, heqv⟩ |
      ⟨c2, cb2, mn2, mb2, _, _, rfl, heqv⟩ | ⟨k, hk, rfl, heqv⟩
    · exact (sep_inj p n1 w2 n2 hpc hqc heqv).1.symm
    · exact (sep_inj p n1 w2 n2 hpc hqc heqv).1.symm
    · exact absurd heqv (decl_ne_method p n1 q c2 mn2 hpc hqc hn1c)
    · exact absurd (decl_node_ne_modkey p n1 mg hgs (heqv ▸ hk)) id
  · -- a walk-level class node
    have hn1c : ':' ∉ n1.data :=
      nameOK_colonFree n1 (walked_classDef_nameOK m n1 b1 hsOK hc1)
    refine ⟨p, (mem_edges_build_iff _ _ _).mpr ⟨(p, m), hf,
      EdgeShape.cls n1 b1 hc1⟩, ?_, p, m, hf, Or.inl ⟨n1, rfl, rfl⟩⟩
    intro w2 hw2
    rcases (mem_edges_build_iff _ _ _).mp hw2 with ⟨g, hg, es⟩
    obtain ⟨q, mg⟩ := g
    have hqc : ':' ∉ q.data := pathOK_colonFree _ (hwf.2 _ hg).1
    have hgs : stmtsOK mg = true := (hwf.2 _ hg).2.1
    rcases edgeShape_descr _ _ _ _ es with
      ⟨n2, b2, _, rfl, heqv⟩ | ⟨n2, b2, _, rfl, heqv⟩ |
      ⟨c2, cb2, mn2, mb2, _, _, rfl, heqv⟩ | ⟨k, hk, rfl, heqv⟩
    · exact (sep_inj p n1 w2 n2 hpc hqc heqv).1.symm
    · exact (sep_inj p n1 w2 n2 hpc hqc heqv).1.symm
    · exact absurd heqv (decl_ne_method p n1 q c2 mn2 hpc hqc hn1c)
    · exact absurd (decl_node_ne_modkey p n1 mg hgs (heqv ▸ hk)) id
  · -- a method node
    have hc1c : ':' ∉ c1.data :=
      nameOK_colonFree c1 (walked_classDef_nameOK m c1 cb1 hsOK hc1)
    refine ⟨p ++ "::" ++ c1, (mem_edges_build_iff _ _ _).mpr ⟨(p, m), hf,
      EdgeShape.method c1 cb1 mn1 mb1 hc1 hm1⟩, ?_, p, m, hf,
      Or.inr ⟨c1, mn1, rfl, rfl,
        lookup_build_of_write files hwf p m hf _ attrClass
          (WriteShape.cls c1 cb1 hc1)⟩⟩
    intro w2 hw2
    rcases (mem_edges_build_iff _ _ _).mp hw2 with ⟨g, hg, es⟩
    obtain ⟨q, mg⟩ := g
    have hqc : ':' ∉ q.data := pathOK_colonFree _ (hwf.2 _ hg).1
    have hgs : stmtsOK mg = true := (hwf.2 _ hg).2.1
    rcases edgeShape_descr _ _ _ _ es with
      ⟨n2, b2, hmem2, rfl, heqv⟩ | ⟨n2, b2, hmem2, rfl, heqv⟩ |
      ⟨c2, cb2, mn2, mb2, hmem2, _, rfl, heqv⟩ | ⟨k, hk, rfl, heqv⟩
    · have hn2c : ':' ∉ n2.data :=
        nameOK_colonFree n2 (walked_functionDef_nameOK mg n2 b2 hgs hmem2)
      exact absurd heqv.symm (decl_ne_method w2 n2 p c1 mn1 hqc hpc hn2c)
    · have hn2c : ':' ∉ n2.data :=
        nameOK_colonFree n2 (walked_classDef_nameOK mg n2 b2 hgs hmem2)
      exact absurd heqv.symm (decl_ne_method w2 n2 p c1 mn1 hqc hpc hn2c)
    · have hc2c : ':' ∉ c2.data :=
        nameOK_colonFree c2 (walked_classDef_nameOK mg c2 cb2 hgs hmem2)
      rcases method_inj p c1 mn1 q c2 mn2 hpc hqc hc1c hc2c heqv with ⟨hpq, hcc, _⟩
      rw [← hpq, ← hcc]
    · exact absurd (decl_node_ne_modkey (p ++ "::" ++ c1) mn1 mg hgs (heqv ▸ hk)) id
  · exfalso
    rcases hty with h | h
    · exact absurd (Option.some.inj h) (by decide)
    · exact absurd (Option.some.inj h) (by decide)

/-- C2 witness: the method node `d/a.py::C::m` of the example build has
its unique containment edge from the Class node `d/a.py::C`. -/
theorem c2_amended_containment_witness :
    ∃ u, (u, "d/a.py::C::m") ∈ (build_import_graph exampleFiles).G.edges ∧
      (∀ w2, (w2, "d/a.py::C::m") ∈ (build_import_graph exampleFiles).G.edges →
        w2 = u) ∧
      ∃ p m, (p, m) ∈ exampleFiles ∧
        ((∃ name, "d/a.py::C::m" = p ++ "::" ++ name ∧ u = p) ∨
         (∃ cname mname, "d/a.py::C::m" = p ++ "::" ++ cname ++ "::" ++ mname ∧
           u = p ++ "::" ++ cname ∧
           lookupNode (build_import_graph exampleFiles).G u = some attrClass)) :=
  c2_amended_containment exampleFiles (by decide) "d/a.py::C::m" attrFunction
    (by decide) (Or.inl rfl)

/-! ### Claim C10: every function at any depth gets a walk-level node -/

/-- Whether a statement is a `FunctionDef` with the given name. -/
def isFuncNamed (nm : String) : Stmt → Bool
  | .functionDef n _ => n = nm
  | _ => false

/-- Whether a statement is a `ClassDef` with the given name. -/
def isClassNamed (nm : String) : Stmt → Bool
  | .classDef n _ => n = nm
  | _ => false

theorem unique_of_filter_len_one {α : Type} (l : List α) (pred : α → Bool)
    (h : (l.filter pred).length = 1) (a b : α) (ha : a ∈ l) (hpa : pred a = true)
    (hb : b ∈ l) (hpb : pred b = true) : a = b := by
  rcases List.length_eq_one.mp h with ⟨x, hx⟩
  have h1 : a ∈ l.filter pred := List.mem_filter.mpr ⟨ha, hpa⟩
  have h2 : b ∈ l.filter pred := List.mem_filter.mpr ⟨hb, hpb⟩
  rw [hx] at h1 h2
  rw [List.mem_singleton.mp h1, List.mem_singleton.mp h2]

theorem filter_key_of_nodup {α : Type} (l : List (String × α))
    (hnodup : (l.map Prod.fst).Nodup) (k : String) :
    l.filter (fun kv => kv.1 = k) =
      match l.find? (fun kv => kv.1 = k) with
      | some kv => [kv]
      | none => [] := by
  induction l with
  | nil => rfl
  | cons kv rest ih =>
    rw [List.map_cons, List.nodup_cons] at hnodup
    by_cases h : kv.1 = k
    · rw [List.filter_cons_of_pos (by simpa using h),
        List.find?_cons_of_pos _ (by simpa using h)]
      have hrest : rest.filter (fun kv => kv.1 = k) = [] := by
        rw [List.filter_eq_nil_iff]
        intro kv2 h2 hc
        apply hnodup.1
        have : kv2.1 = k := by simpa using hc
        rw [h, ← this]
        exact List.mem_map.mpr ⟨kv2, h2, rfl⟩
      rw [hrest]
    · rw [List.filter_cons_of_neg (by simpa using h),
        List.find?_cons_of_neg _ (by simpa using h)]
      exact ih hnodup.2

theorem dictLookup_dictMerge (a b : List (String × String))
    (hb : (b.map Prod.fst).Nodup) (k : String) :
    dictLookup (dictMerge a b) k =
      match dictLookup b k with
      | some v => some v
      | none => dictLookup a k := by
  unfold dictMerge
  rw [dictLookup_foldl_insert, filter_key_of_nodup b hb k]
  unfold dictLookup
  cases hfind : b.find? (fun kv => kv.1 = k) with
  | some kv => rfl
  | none => rfl

theorem dictLookup_dictOfWrites (ws : List (String × String)) (k : String) :
    dictLookup (dictOfWrites ws) k =
      match (ws.filter (fun kv => kv.1 = k)).getLast? with
      | some kv => some kv.2
      | none => none := by
  unfold dictOfWrites
  rw [dictLookup_foldl_insert]
  cases (ws.filter (fun kv => kv.1 = k)).getLast? with
  | some kv => rfl
  | none => rfl

/-- The merged snippet dict under a walk-level function key: the class
dict never holds such a key (well-formed files have no function/class
name clash), and every function write under the key stores the unique
declaration's reconstructed text. -/
theorem codes_lookup_funcNode (files : List (String × List Stmt)) (hwf : filesWF files)
    (p : String) (m : List Stmt) (hf : (p, m) ∈ files)
    (mn : String) (mb : List Stmt) (hmem : Stmt.functionDef mn mb ∈ walk m)
    (huniq : ∀ b2, Stmt.functionDef mn b2 ∈ walk m → b2 = mb) :
    dictLookup (build_import_graph files).codes (p ++ "::" ++ mn) =
      some (get_function_code (Stmt.functionDef mn mb)) := by
  have hpc : ':' ∉ p.data := pathOK_colonFree _ (hwf.2 _ hf).1
  have hsOK : stmtsOK m = true := (hwf.2 _ hf).2.1
  have hmnc : ':' ∉ mn.data :=
    nameOK_colonFree mn (walked_functionDef_nameOK m mn mb hsOK hmem)
  show dictLookup (dictMerge (function_codesOf files) (class_codesOf files)) _ = _
  have hnodupb : ((class_codesOf files).map Prod.fst).Nodup :=
    dictOfWrites_keys_nodup _
  rw [dictLookup_dictMerge _ _ hnodupb]
  have hcls : dictLookup (class_codesOf files) (p ++ "::" ++ mn) = none := by
    show dictLookup (dictOfWrites _) _ = none
    rw [dictLookup_dictOfWrites]
    have hfilter : (files.flatMap (fun f => (walk f.2).flatMap (stmtClassWrites f.1))).filter
        (fun kv => kv.1 = p ++ "::" ++ mn) = [] := by
      rw [List.filter_eq_nil_iff]
      intro kv hkv hc
      have hkey : kv.1 = p ++ "::" ++ mn := by simpa using hc
      rcases List.mem_flatMap.mp hkv with ⟨g, hg, hkv2⟩
      rcases List.mem_flatMap.mp hkv2 with ⟨s, hs, hkv3⟩
      have hqc : ':' ∉ g.1.data := pathOK_colonFree _ (hwf.2 _ hg).1
      cases s with
      | classDef n2 b2 =>
        rcases List.mem_singleton.mp hkv3 with rfl
        have heq : g.1 ++ "::" ++ n2 = p ++ "::" ++ mn := hkey
        rcases sep_inj g.1 n2 p mn hqc hpc heq with ⟨hq, hn⟩
        have hgm : g.2 = m := by
          apply nodup_fst_eq files hwf.1 p
          · rw [← hq]
            exact (show (g.1, g.2) ∈ files from hg)
          · exact hf
        subst hn
        rw [hgm] at hs
        exact noClash_elim m (hwf.2 _ hf).2.2 n2 mb b2 hmem hs
      | functionDef n2 b2 => cases hkv3
      | importS ns => cases hkv3
      | importFrom mo ns => cases hkv3
      | other b2 => cases hkv3
    rw [hfilter]
    rfl
  rw [hcls]
  show dictLookup (function_codesOf files) _ = _
  show dictLookup (dictOfWrites _) _ = _
  rw [dictLookup_dictOfWrites]
  have hlast : ((files.flatMap (fun f => (walk f.2).flatMap (stmtFunWrites f.1))).filter
      (fun kv => kv.1 = p ++ "::" ++ mn)).getLast? =
      some (p ++ "::" ++ mn, get_function_code (Stmt.functionDef mn mb)) := by
    apply getLast?_eq_of_all_eq
    · apply List.ne_nil_of_mem
      apply List.mem_filter.mpr
      refine ⟨List.mem_flatMap.mpr ⟨(p, m), hf, List.mem_flatMap.mpr
        ⟨Stmt.functionDef mn mb, hmem, List.mem_singleton.mpr rfl⟩⟩, by simp⟩
    · intro kv hkv
      rcases List.mem_filter.mp hkv with ⟨hmem2, hkeyb⟩
      have hkey : kv.1 = p ++ "::" ++ mn := by simpa using hkeyb
      rcases List.mem_flatMap.mp hmem2 with ⟨g, hg, hkv2⟩
      rcases List.mem_flatMap.mp hkv2 with ⟨s, hs, hkv3⟩
      have hqc : ':' ∉ g.1.data := pathOK_colonFree _ (hwf.2 _ hg).1
      have hgsOK : stmtsOK g.2 = true := (hwf.2 _ hg).2.1
      cases s with
      | functionDef n2 b2 =>
        rcases List.mem_singleton.mp hkv3 with rfl
        have heq : g.1 ++ "::" ++ n2 = p ++ "::" ++ mn := hkey
        rcases sep_inj g.1 n2 p mn hqc hpc heq with ⟨hq, hn⟩
        have hgm : g.2 = m := by
          apply nodup_fst_eq files hwf.1 p
          · rw [← hq]
            exact (show (g.1, g.2) ∈ files from hg)
          · exact hf
        subst hn
        rw [hgm] at hs
        have hb2 : b2 = mb := huniq b2 hs
        rw [hq, hb2]
      | classDef n2 b2 =>
        rcases List.mem_filterMap.mp hkv3 with ⟨item, hitem, hsome⟩
        cases item with
        | functionDef mn2 mb2 =>
          have hkv4 := Option.some.inj hsome
          have hkey2 : g.1 ++ "::" ++ n2 ++ "::" ++ mn2 = p ++ "::" ++ mn := by
            rw [← hkey, ← hkv4]
          have hn2c : ':' ∉ n2.data :=
            nameOK_colonFree n2 (walked_classDef_nameOK g.2 n2 b2 hgsOK hs)
          exact absurd hkey2.symm (decl_ne_method p mn g.1 n2 mn2 hpc hqc hmnc)
        | importS ns => cases hsome
        | importFrom mo ns => cases hsome
        | classDef n3 b3 => cases hsome
        | other b3 => cases hsome
      | importS ns => cases hkv3
      | importFrom mo ns => cases hkv3
      | other b2 => cases hkv3
  rw [hlast]

/-- The merged snippet dict under a method key `file::Class::method`:
only the unique method write stores it. -/
theorem codes_lookup_methodNode (files : List (String × List Stmt)) (hwf : filesWF files)
    (p : String) (m : List Stmt) (hf : (p, m) ∈ files)
    (c : String) (cb : List Stmt) (mn : String) (mb : List Stmt)
    (hc : Stmt.classDef c cb ∈ walk m) (hm : Stmt.functionDef mn mb ∈ cb)
    (huniqF : ∀ b2, Stmt.functionDef mn b2 ∈ walk m → b2 = mb) :
    dictLookup (build_import_graph files).codes (p ++ "::" ++ c ++ "::" ++ mn) =
      some (get_function_code (Stmt.functionDef mn mb)) := by
  have hpc : ':' ∉ p.data := pathOK_colonFree _ (hwf.2 _ hf).1
  have hsOK : stmtsOK m = true := (hwf.2 _ hf).2.1
  have hcc : ':' ∉ c.data :=
    nameOK_colonFree c (walked_classDef_nameOK m c cb hsOK hc)
  show dictLookup (dictMerge (function_codesOf files) (class_codesOf files)) _ = _
  have hnodupb : ((class_codesOf files).map Prod.fst).Nodup :=
    dictOfWrites_keys_nodup _
  rw [dictLookup_dictMerge _ _ hnodupb]
  have hcls : dictLookup (class_codesOf files) (p ++ "::" ++ c ++ "::" ++ mn) = none := by
    show dictLookup (dictOfWrites _) _ = none
    rw [dictLookup_dictOfWrites]
    have hfilter : (files.flatMap (fun f => (walk f.2).flatMap (stmtClassWrites f.1))).filter
        (fun kv => kv.1 = p ++ "::" ++ c ++ "::" ++ mn) = [] := by
      rw [List.filter_eq_nil_iff]
      intro kv hkv hcnd
      have hkey : kv.1 = p ++ "::" ++ c ++ "::" ++ mn := by simpa using hcnd
      rcases List.mem_flatMap.mp hkv with ⟨g, hg, hkv2⟩
      rcases List.mem_flatMap.mp hkv2 with ⟨s, hs, hkv3⟩
      have hqc : ':' ∉ g.1.data := pathOK_colonFree _ (hwf.2 _ hg).1
      have hgsOK : stmtsOK g.2 = true := (hwf.2 _ hg).2.1
      cases s with
      | classDef n2 b2 =>
        rcases List.mem_singleton.mp hkv3 with rfl
        have hn2c : ':' ∉ n2.data :=
          nameOK_colonFree n2 (walked_classDef_nameOK g.2 n2 b2 hgsOK hs)
        exact absurd (show g.1 ++ "::" ++ n2 = p ++ "::" ++ c ++ "::" ++ mn from hkey)
          (decl_ne_method g.1 n2 p c mn hqc hpc hn2c)
      | functionDef n2 b2 => cases hkv3
      | importS ns => cases hkv3
      | importFrom mo ns => cases hkv3
      | other b2 => cases hkv3
    rw [hfilter]
    rfl
  rw [hcls]
  show dictLookup (function_codesOf files) _ = _
  show dictLookup (dictOfWrites _) _ = _
  rw [dictLookup_dictOfWrites]
  have hlast : ((files.flatMap (fun f => (walk f.2).flatMap (stmtFunWrites f.1))).filter
      (fun kv => kv.1 = p ++ "::" ++ c ++ "::" ++ mn)).getLast? =
      some (p ++ "::" ++ c ++ "::" ++ mn, get_function_code (Stmt.functionDef mn mb)) := by
    apply getLast?_eq_of_all_eq
    · apply List.ne_nil_of_mem
      apply List.mem_filter.mpr
      refine ⟨List.mem_flatMap.mpr ⟨(p, m), hf, List.mem_flatMap.mpr
        ⟨Stmt.classDef c cb, hc, List.mem_filterMap.mpr
          ⟨Stmt.functionDef mn mb, hm, rfl⟩⟩⟩, by simp⟩
    · intro kv hkv
      rcases List.mem_filter.mp hkv with ⟨hmem2, hkeyb⟩
      have hkey : kv.1 = p ++ "::" ++ c ++ "::" ++ mn := by simpa using hkeyb
      rcases List.mem_flatMap.mp hmem2 with ⟨g, hg, hkv2⟩
      rcases List.mem_flatMap.mp hkv2 with ⟨s, hs, hkv3⟩
      have hqc : ':' ∉ g.1.data := pathOK_colonFree _ (hwf.2 _ hg).1
      have hgsOK : stmtsOK g.2 = true := (hwf.2 _ hg).2.1
      cases s with
      | functionDef n2 b2 =>
        rcases List.mem_singleton.mp hkv3 with rfl
        have hn2c : ':' ∉ n2.data :=
          nameOK_colonFree n2 (walked_functionDef_nameOK g.2 n2 b2 hgsOK hs)
        exact absurd (show g.1 ++ "::" ++ n2 = p ++ "::" ++ c ++ "::" ++ mn from hkey)
          (decl_ne_method g.1 n2 p c mn hqc hpc hn2c)
      | classDef n2 b2 =>
        rcases List.mem_filterMap.mp hkv3 with ⟨item, hitem, hsome⟩
        cases item with
        | functionDef mn2 mb2 =>
          have hkv4 := Option.some.inj hsome
          have hn2c : ':' ∉ n2.data :=
            nameOK_colonFree n2 (walked_classDef_nameOK g.2 n2 b2 hgsOK hs)
          have hkey2 : g.1 ++ "::" ++ n2 ++ "::" ++ mn2 = p ++ "::" ++ c ++ "::" ++ mn := by
            rw [← hkey, ← hkv4]
          rcases method_inj g.1 n2 mn2 p c mn hqc hpc hn2c hcc hkey2 with ⟨hq, hn, hmn⟩
          have hgm : g.2 = m := by
            apply nodup_fst_eq files hwf.1 p
            · rw [← hq]
              exact (show (g.1, g.2) ∈ files from hg)
            · exact hf
          rw [hgm] at hs
          have hwalkitem : Stmt.functionDef mn2 mb2 ∈ walk m := by
            apply mem_walk_of_child m (Stmt.classDef n2 b2) _ hs
            exact hitem
          have hmb2 : mb2 = mb := by
            apply huniqF
            rw [← hmn]
            exact hwalkitem
          rw [← hkv4, hq, hn, hmn, hmb2]
        | importS ns => cases hsome
        | importFrom mo ns => cases hsome
        | classDef n3 b3 => cases hsome
        | other b3 => cases hsome
      | importS ns => cases hkv3
      | importFrom mo ns => cases hkv3
      | other b2 => cases hkv3
  rw [hlast]

/-- C10 counterexample: one file declaring two classes that each define
a method named `m` (with different bodies) — ordinary Python, e.g. two
classes with their own `init` methods.  The first class's method `m`
does get its snippet stored under its class-qualified identity
`d/f.py::C1::m`, but the shared walk-level key `d/f.py::m` holds the
text of the *last* same-named method the walk reaches (line 72
overwrites `function_codes[f::m]` on every same-named `FunctionDef`),
so the first method's snippet is not stored under both of its
identities, refuting the claim as stated. -/
theorem c10_snippet_overwrite_counterexample :
    dictLookup (build_import_graph
        [("d/f.py", [Stmt.classDef "C1" [Stmt.functionDef "m" []],
                     Stmt.classDef "C2" [Stmt.functionDef "m" [Stmt.other []]]])]).codes
        ("d/f.py" ++ "::" ++ "C1" ++ "::" ++ "m") =
      some (get_function_code (Stmt.functionDef "m" [])) ∧
    dictLookup (build_import_graph
        [("d/f.py", [Stmt.classDef "C1" [Stmt.functionDef "m" []],
                     Stmt.classDef "C2" [Stmt.functionDef "m" [Stmt.other []]]])]).codes
        ("d/f.py" ++ "::" ++ "m") =
      some (get_function_code (Stmt.functionDef "m" [Stmt.other []])) ∧
    get_function_code (Stmt.functionDef "m" []) ≠
      get_function_code (Stmt.functionDef "m" [Stmt.other []]) ∧
    dictLookup (build_import_graph
        [("d/f.py", [Stmt.classDef "C1" [Stmt.functionDef "m" []],
                     Stmt.classDef "C2" [Stmt.functionDef "m" [Stmt.other []]]])]).codes
        ("d/f.py" ++ "::" ++ "m") ≠
      some (get_function_code (Stmt.functionDef "m" [])) := by decide

/-- C10 (amended): for every successfully parsed file of a well-formed
run, every function definition at any nesting depth — a method inside a
class, or a function nested inside another function — produces a
Function node identified as the file path joined to just the function's
own name, with a Containment edge directly from the File node;
consequently a method `m` of class `C` in file `f` yields two distinct
nodes `f::m` (child of the File node) and `f::C::m` (child of the Class
node).  Its snippet text is stored in the snippet map under both
identities provided `m` is the only function of that name in the file;
otherwise the shared key `f::m` holds the text of the last same-named
function the walk reaches (see the counterexample above). -/
theorem c10_walk_level_function_nodes (files : List (String × List Stmt))
    (hwf : filesWF files) (p : String) (m : List Stmt) (hf : (p, m) ∈ files) :
    (∀ name body, Stmt.functionDef name body ∈ walk m →
      lookupNode (build_import_graph files).G (p ++ "::" ++ name) = some attrFunction ∧
      (p, p ++ "::" ++ name) ∈ (build_import_graph files).G.edges) ∧
    (∀ cname cbody mname mbody, Stmt.classDef cname cbody ∈ walk m →
      Stmt.functionDef mname mbody ∈ cbody →
      ((walk m).filter (isFuncNamed mname)).length = 1 →
      (p ++ "::" ++ mname ≠ p ++ "::" ++ cname ++ "::" ++ mname) ∧
      lookupNode (build_import_graph files).G (p ++ "::" ++ mname) =
        some attrFunction ∧
      (p, p ++ "::" ++ mname) ∈ (build_import_graph files).G.edges ∧
      lookupNode (build_import_graph files).G (p ++ "::" ++ cname ++ "::" ++ mname) =
        some attrFunction ∧
      (p ++ "::" ++ cname, p ++ "::" ++ cname ++ "::" ++ mname) ∈
        (build_import_graph files).G.edges ∧
      dictLookup (build_import_graph files).codes (p ++ "::" ++ mname) =
        some (get_function_code (Stmt.functionDef mname mbody)) ∧
      dictLookup (build_import_graph files).codes
          (p ++ "::" ++ cname ++ "::" ++ mname) =
        some (get_function_code (Stmt.functionDef mname mbody))) := by
  have hpc : ':' ∉ p.data := pathOK_colonFree _ (hwf.2 _ hf).1
  have hsOK : stmtsOK m = true := (hwf.2 _ hf).2.1
  constructor
  · intro name body hmem
    exact ⟨lookup_build_of_write files hwf p m hf _ attrFunction
        (WriteShape.func name body hmem),
      (mem_edges_build_iff _ _ _).mpr ⟨(p, m), hf, EdgeShape.func name body hmem⟩⟩
  · intro cname cbody mname mbody hcm hmm hflt
    have hwalkm : Stmt.functionDef mname mbody ∈ walk m := by
      apply mem_walk_of_child m (Stmt.classDef cname cbody) _ hcm
      exact hmm
    have hmnc : ':' ∉ mname.data :=
      nameOK_colonFree mname (walked_functionDef_nameOK m mname mbody hsOK hwalkm)
    have huniqF : ∀ b2, Stmt.functionDef mname b2 ∈ walk m → b2 = mbody := by
      intro b2 hb2
      have heq := unique_of_filter_len_one (walk m) (isFuncNamed mname) hflt
        (Stmt.functionDef mname b2) (Stmt.functionDef mname mbody)
        hb2 (by simp [isFuncNamed]) hwalkm (by simp [isFuncNamed])
      exact (Stmt.functionDef.injEq .. ▸ heq).2
    refine ⟨decl_ne_method p mname p cname mname hpc hpc hmnc, ?_, ?_, ?_, ?_, ?_, ?_⟩
    · exact lookup_build_of_write files hwf p m hf _ attrFunction
        (WriteShape.func mname mbody hwalkm)
    · exact (mem_edges_build_iff _ _ _).mpr
        ⟨(p, m), hf, EdgeShape.func mname mbody hwalkm⟩
    · exact lookup_build_of_write files hwf p m hf _ attrFunction
        (WriteShape.method cname cbody mname mbody hcm hmm)
    · exact (mem_edges_build_iff _ _ _).mpr
        ⟨(p, m), hf, EdgeShape.method cname cbody mname mbody hcm hmm⟩
    · exact codes_lookup_funcNode files hwf p m hf mname mbody hwalkm huniqF
    · exact codes_lookup_methodNode files hwf p m hf cname cbody mname mbody
        hcm hmm huniqF

/-- C10 witness: the method `m` of class `C` in the example build. -/
theorem c10_walk_level_function_nodes_witness :
    ("d/a.py" ++ "::" ++ "m" ≠ "d/a.py" ++ "::" ++ "C" ++ "::" ++ "m") ∧
    lookupNode (build_import_graph exampleFiles).G ("d/a.py" ++ "::" ++ "m") =
      some attrFunction ∧
    ("d/a.py", "d/a.py" ++ "::" ++ "m") ∈ (build_import_graph exampleFiles).G.edges ∧
    lookupNode (build_import_graph exampleFiles).G
        ("d/a.py" ++ "::" ++ "C" ++ "::" ++ "m") = some attrFunction ∧
    ("d/a.py" ++ "::" ++ "C", "d/a.py" ++ "::" ++ "C" ++ "::" ++ "m") ∈
      (build_import_graph exampleFiles).G.edges ∧
    dictLookup (build_import_graph exampleFiles).codes ("d/a.py" ++ "::" ++ "m") =
      some (get_function_code (Stmt.functionDef "m" [])) ∧
    dictLookup (build_import_graph exampleFiles).codes
        ("d/a.py" ++ "::" ++ "C" ++ "::" ++ "m") =
      some (get_function_code (Stmt.functionDef "m" [])) :=
  (c10_walk_level_function_nodes exampleFiles (by decide) "d/a.py"
      [Stmt.classDef "C" [Stmt.functionDef "m" []], Stmt.importS ["os"]]
      (List.mem_cons_self _ _)).2
    "C" [Stmt.functionDef "m" []] "m" []
    (by rw [mem_walk_iff]; exact List.mem_cons_self _ _)
    (List.mem_cons_self _ _) (by decide)

/-! ### Claims C1 and C8: fatal and non-fatal conditions -/

/-- A discovered directory whose middle file has malformed source:
`ast.parse` raises on it. -/
def filesWithBad : List (String × Except Unit (List Stmt)) :=
  [("d/a.py", Except.ok [Stmt.functionDef "foo" [], Stmt.importS ["os"]]),
   ("d/b.py", Except.error ()),
   ("d/c.py", Except.ok [Stmt.functionDef "baz" []])]

/-- The same directory with the malformed file absent. -/
def filesWithoutBad : List (String × Except Unit (List Stmt)) :=
  [("d/a.py", Except.ok [Stmt.functionDef "foo" [], Stmt.importS ["os"]]),
   ("d/c.py", Except.ok [Stmt.functionDef "baz" []])]

/-- C1 (code bug): `build_import_graph` calls `ast.parse` (script.py
line 65) with no exception handler, and `main` (lines 271-274) has none
either, so the first malformed file aborts the whole run with an
uncaught `SyntaxError`: no graph is returned at all, the parseable
sibling files contribute nothing, and no diagnostic-and-continue path
exists — though the very same sibling set builds fine when the
malformed file is absent. -/
theorem c1_parse_failure_aborts_run :
    build_import_graph_exc filesWithBad = Except.error () ∧
    build_import_graph_exc filesWithoutBad =
      Except.ok (build_import_graph
        [("d/a.py", [Stmt.functionDef "foo" [], Stmt.importS ["os"]]),
         ("d/c.py", [Stmt.functionDef "baz" []])]) ∧
    lookupNode (build_import_graph
      [("d/a.py", [Stmt.functionDef "foo" [], Stmt.importS ["os"]]),
       ("d/c.py", [Stmt.functionDef "baz" []])]).G "d/c.py::baz" =
      some attrFunction := by
  refine ⟨rfl, rfl, by decide⟩

/-- What `os.walk` yields for an unreadable or non-existent root
directory: with its default `onerror=None` the error is swallowed and
the traversal produces no entries at all. -/
def os_walk_missing_root : List (String × Except Unit (List Stmt)) := []

/-- C8 (code bug): neither `build_import_graph` (script.py lines 56-62)
nor `main` (lines 271-274) checks the root directory; `os.walk` on an
unreadable or non-existent root silently yields nothing, so the run
neither reports the condition nor aborts — it completes normally with
an empty graph.  (And it is not the only fatal condition either: a
parse failure does abort the run, see the C1 theorem.) -/
theorem c8_missing_root_not_fatal :
    build_import_graph_exc os_walk_missing_root =
      Except.ok (build_import_graph []) ∧
    (build_import_graph []).G = Graph.empty ∧
    (build_import_graph []).file_nodes = [] ∧
    (build_import_graph []).codes = [] := by
  exact ⟨rfl, rfl, rfl, rfl⟩
